import Mathlib

/-!
Verification of the byte-storage / layout-resolution engine of
`pyinstr_iakoster` (generations `pyinstr_iakoster/communication/_fields.py`,
`src/pyiak_instr/types/store/_bin.py`, and
`src/pyiak_instr/types/store/bin/_pattern.py`).

The Python code is shallowly embedded: byte buffers are `List Nat` (each
entry a byte value), Python `int` is `Int`, Python exceptions are an
explicit error type threaded through `Except` or returned next to the
post-raise state.
-/

namespace PyiakInstr

/-- Python exception kinds raised by the embedded code.  Messages are kept
only where a claim talks about them; `attributeError` carries the list of
field names reported by `BytesStorageABC._check_fields_list`. -/
inductive PyErr where
  | valueError (msg : String)
  | typeError (msg : String)
  | assertionError (msg : String)
  | keyError (key : String)
  | syntaxError (msg : String)
  | attributeError (names : List String)
  deriving Repr, DecidableEq

/-! ### Python slice semantics

`content[start:stop]` and `content[start:stop] = new` for `start : Int`
and `stop : Int | None`, as used via `BytesFieldStructProtocol.slice_`. -/

/-- Resolve one Python slice bound against a buffer of length `L`:
negative indices count from the end and both directions clamp to
`[0, L]`. -/
def pyIdx (L : Nat) (i : Int) : Nat :=
  if i < 0 then (L + i).toNat else min i.toNat L

/-- Resolved bounds `(a, b)` of `slice(start, stop)` over a buffer of
length `L`; `stop = none` is Python's `None` (end of buffer). -/
def pyBounds (L : Nat) (start : Int) (stop : Option Int) : Nat × Nat :=
  (pyIdx L start, match stop with | none => L | some s => pyIdx L s)

/-- `content[start:stop]` on a list. -/
def pySliceGet (c : List Nat) (start : Int) (stop : Option Int) : List Nat :=
  let (a, b) := pyBounds c.length start stop
  (c.take b).drop a

/-- `content[start:stop] = new` on a list (`bytearray` slice assignment
with implicit step, which replaces the addressed range and may change the
total length). -/
def pySliceSet (c : List Nat) (start : Int) (stop : Option Int)
    (new : List Nat) : List Nat :=
  let (a, b) := pyBounds c.length start stop
  c.take a ++ new ++ c.drop (max a b)

/-! ### Scalar codec

The original generation encodes a value sequence with
`np.array(content, dtype=fmt).tobytes()` and decodes with
`np.frombuffer(bytes_, dtype=fmt)`
(`pyinstr_iakoster/communication/_fields.py`, `Field._convert_content` /
`Field._unpack_bytes`); a dtype is a fixed-width integer format with an
explicit byte order.  Words are encoded as exactly `width` bytes each,
two's-complement for signed formats, concatenated in sequence order. -/

/-- Fixed-width numeric formats (the integer dtypes of the codec; the
float dtypes are outside the embedding). -/
inductive Fmt where
  | u8 | u16 | u32 | u64 | i8 | i16 | i32 | i64
  deriving Repr, DecidableEq

def Fmt.width : Fmt → Nat
  | .u8 => 1 | .u16 => 2 | .u32 => 4 | .u64 => 8
  | .i8 => 1 | .i16 => 2 | .i32 => 4 | .i64 => 8

def Fmt.signed : Fmt → Bool
  | .u8 => false | .u16 => false | .u32 => false | .u64 => false
  | .i8 => true | .i16 => true | .i32 => true | .i64 => true

/-- `v` is representable in format `f`. -/
def Fmt.inRange (f : Fmt) (v : Int) : Prop :=
  if f.signed then
    -(2 ^ (8 * f.width - 1) : Nat) ≤ v ∧ v < (2 ^ (8 * f.width - 1) : Nat)
  else 0 ≤ v ∧ v < (2 ^ (8 * f.width) : Nat)

instance (f : Fmt) (v : Int) : Decidable (f.inRange v) := by
  unfold Fmt.inRange; infer_instance

/-- Big-endian bytes of the `w`-byte unsigned value `v`. -/
def natToBytesBE : Nat → Nat → List Nat
  | 0, _ => []
  | w + 1, v => natToBytesBE w (v / 256) ++ [v % 256]

/-- Unsigned value of big-endian bytes. -/
def natFromBytesBE (bs : List Nat) : Nat :=
  bs.foldl (fun acc b => acc * 256 + b) 0

/-- Bytes of one word of format `f` in the given byte order (two's
complement for signed formats, as numpy casting produces). -/
def wordToBytes (f : Fmt) (big : Bool) (v : Int) : List Nat :=
  let u := (v % ((2 : Int) ^ (8 * f.width))).toNat
  let be := natToBytesBE f.width u
  if big then be else be.reverse

/-- Value of one word of format `f` from its bytes. -/
def wordFromBytes (f : Fmt) (big : Bool) (bs : List Nat) : Int :=
  let u := natFromBytesBE (if big then bs else bs.reverse)
  if f.signed ∧ 2 ^ (8 * f.width - 1) ≤ u then
    (u : Int) - (2 : Int) ^ (8 * f.width)
  else u

/-- `np.array(values, dtype=fmt).tobytes()`: words packed in sequence
order. -/
def encodeWords (f : Fmt) (big : Bool) (vals : List Int) : List Nat :=
  (vals.map (wordToBytes f big)).flatten

/-- Split a byte list into `w`-byte chunks (`fuel` bounds the recursion;
`chunksOfWidth` supplies enough). -/
def chunksAux (w : Nat) : Nat → List Nat → List (List Nat)
  | 0, _ => []
  | _ + 1, [] => []
  | fuel + 1, l@(_ :: _) => l.take w :: chunksAux w fuel (l.drop w)

def chunksOfWidth (w : Nat) (l : List Nat) : List (List Nat) :=
  chunksAux w l.length l

/-- `np.frombuffer(bytes_, dtype=fmt)`: the byte buffer reinterpreted as a
word sequence. -/
def decodeWords (f : Fmt) (big : Bool) (bs : List Nat) : List Int :=
  (chunksOfWidth f.width bs).map (wordFromBytes f big)

/-! ### Field structure

`BytesFieldStructProtocol` of `src/pyiak_instr/types/store/_bin.py`: a
frozen dataclass whose `__post_init__` runs
`_verify_values_before_modifying`, `_modify_values`,
`_verify_values_after_modifying` in that order.  `word_bytesize` is the
byte width of `fmt`.  The abstract `encode`/`decode` are instantiated with
the scalar codec. -/

structure FieldStruct where
  start : Int
  stop : Option Int
  bytes_expected : Int
  fmt : Fmt
  big : Bool
  default : List Nat
  deriving Repr, DecidableEq

def FieldStruct.word_bytesize (f : FieldStruct) : Nat := f.fmt.width

/-- `is_dynamic`: `bytes_expected == 0`. -/
def FieldStruct.is_dynamic (f : FieldStruct) : Bool := f.bytes_expected == 0

/-- `has_default`: `len(default) != 0`. -/
def FieldStruct.has_default (f : FieldStruct) : Bool := f.default.length != 0

/-- `verify`: a dynamic field accepts any whole number of words, a fixed
field exactly `bytes_expected` bytes. -/
def FieldStruct.verify (f : FieldStruct) (content : List Nat) : Bool :=
  if f.is_dynamic then content.length % f.word_bytesize == 0
  else (content.length : Int) == f.bytes_expected

/-- Modelled from the spec: the concrete `encode` of a field (abstract in
`_bin.py`, the concrete `BytesField` module is absent from `src/`) is the
scalar codec of §4.1 applied with the field's format and order. -/
def FieldStruct.encode (f : FieldStruct) (vals : List Int) : List Nat :=
  encodeWords f.fmt f.big vals

/-- Modelled from the spec: the concrete `decode` of a field (abstract in
`_bin.py`) is the scalar codec of §4.1. -/
def FieldStruct.decode (f : FieldStruct) (content : List Nat) : List Int :=
  decodeWords f.fmt f.big content

/-- `BytesFieldStructProtocol.__post_init__`: the construction pipeline.
Mirrors `_verify_values_before_modifying`, `_modify_values` (including the
silent `bytes_expected < 0 → 0` normalisation) and
`_verify_values_after_modifying`. -/
def mkField (start : Int) (stop : Option Int) (bytes_expected : Int)
    (fmt : Fmt) (big : Bool) (default : List Nat) :
    Except PyErr FieldStruct :=
  if stop = some 0 then
    .error (.valueError "'stop' can't be equal to zero")
  else if stop.isSome ∧ bytes_expected > 0 then
    .error (.typeError "'bytes_expected' or 'stop' setting not allowed")
  else if 0 > start ∧ start > -bytes_expected then
    .error (.valueError "it will be out of bounds")
  else
    let be₀ : Int := if bytes_expected < 0 then 0 else bytes_expected
    let step : Except PyErr (Int × Option Int) :=
      if be₀ > 0 then
        .ok (be₀, if start + be₀ ≠ 0 then some (start + be₀) else stop)
      else
        match stop with
        | some s =>
          .ok (if ¬(start ≥ 0 ∧ s < 0) then s - start else be₀, some s)
        | none =>
          if start ≤ 0 then .ok (-start, none)
          else .error
            (.assertionError "impossible to modify start, stop and bytes_expected")
    match step with
    | .error e => .error e
    | .ok (be₁, stop₁) =>
      if be₁ % (fmt.width : Int) ≠ 0 then
        .error (.valueError "'bytes_expected' does not match an integer word count")
      else
        .ok ⟨start, stop₁, be₁, fmt, big, default⟩

/-! ### Storage

`BytesStorageABC` of `src/pyiak_instr/types/store/_bin.py`: an ordered,
named collection of field structs over one byte buffer `_c`.  Python
mutates `self._c` in place and raises; the embedding returns the
post-raise state next to an optional exception. -/

structure Storage where
  fields : List (String × FieldStruct)
  buf : List Nat
  deriving Repr, DecidableEq

/-- `self._f[name]` (`None` for the `KeyError` case). -/
def Storage.lookup (S : Storage) (n : String) : Option FieldStruct :=
  (S.fields.find? (·.1 == n)).map (·.2)

/-- A field parser's `content`: `self._storage.content[self._struct.slice_]`. -/
def fieldContent (buf : List Nat) (f : FieldStruct) : List Nat :=
  pySliceGet buf f.start f.stop

/-- `BytesStorageABC.bytes_expected`: sum over all field structs. -/
def Storage.bytes_expected (S : Storage) : Int :=
  (S.fields.map (·.2.bytes_expected)).sum

/-- `BytesStorageABC.is_dynamic`. -/
def Storage.is_dynamic (S : Storage) : Bool :=
  S.fields.any (·.2.is_dynamic)

/-- `BytesStorageABC.decode`: every field decoded in order. -/
def Storage.decodeAll (S : Storage) : List (String × List Int) :=
  S.fields.map (fun nf => (nf.1, nf.2.decode (fieldContent S.buf nf.2)))

/-- Content handed to `_encode_content`: either raw bytes or a value
sequence to run through the field's `encode`. -/
inductive FieldVal where
  | bytes (bs : List Nat)
  | vals (vs : List Int)
  deriving Repr, DecidableEq

/-- `BytesStorageABC._encode_content`: bytes pass through, values are
encoded; the result must satisfy the field's `verify`. -/
def encodeContent (f : FieldStruct) (raw : FieldVal) : Except PyErr (List Nat) :=
  let content := match raw with
    | .bytes bs => bs
    | .vals vs => f.encode vs
  if f.verify content then .ok content
  else .error (.valueError "content is not correct for field")

/-- `BytesStorageABC.change`: splice one field's new content into the
buffer at the field's current slice.  Returns the state after the call
and the exception, if one was raised. -/
def changeSt (S : Storage) (n : String) (raw : FieldVal) :
    Storage × Option PyErr :=
  if S.buf.length == 0 then (S, some (.typeError "message is empty"))
  else
    match S.lookup n with
    | none => (S, some (.keyError n))
    | some f =>
      match encodeContent f raw with
      | .error e => (S, some e)
      | .ok c => ({S with buf := pySliceSet S.buf f.start f.stop c}, none)

/-- `BytesStorageABC._check_fields_list`: symmetric difference of the
storage's field names and the supplied names, minus supplied-side-absent
fields that have a default, are dynamic, or already hold content; `some
diff` is the `AttributeError` listing those names. -/
def checkDiff (S : Storage) (names : List String) : List String :=
  (((S.fields.map (·.1)).filter (fun n => ¬ names.contains n))
      ++ names.filter (fun n => ¬ (S.fields.map (·.1)).contains n)).filter
    (fun n =>
      match S.lookup n with
      | some f =>
        ¬(f.has_default || f.is_dynamic || (fieldContent S.buf f).length != 0)
      | none => true)

def checkFieldsList (S : Storage) (names : List String) :
    Option (List String) :=
  if (checkDiff S names).isEmpty then none else some (checkDiff S names)

/-- The per-field appending loop of `BytesStorageABC._set_all`
(`self._c += ...`); on a raise the partial buffer is kept. -/
def setAllGo (supplied : List (String × FieldVal)) (acc : List Nat) :
    List (String × FieldStruct) → List Nat × Option PyErr
  | [] => (acc, none)
  | (n, f) :: rest =>
    match (supplied.find? (·.1 == n)).map (·.2) with
    | some raw =>
      match encodeContent f raw with
      | .error e => (acc, some e)
      | .ok c => setAllGo supplied (acc ++ c) rest
    | none =>
      if f.has_default then setAllGo supplied (acc ++ f.default) rest
      else if f.is_dynamic then setAllGo supplied acc rest
      else (acc, some (.assertionError "it is impossible to set the value of the field"))

/-- `BytesStorageABC._set_all`. -/
def setAllSt (S : Storage) (supplied : List (String × FieldVal)) :
    Storage × Option PyErr :=
  if S.buf.length != 0 then (S, some (.assertionError "message must be empty"))
  else
    match checkFieldsList S (supplied.map (·.1)) with
    | some diff => (S, some (.attributeError diff))
    | none =>
      let r := setAllGo supplied [] S.fields
      ({S with buf := r.1}, r.2)

/-- `BytesStorageABC._extract`: length checks, then the buffer is cleared
and rebuilt field by field from slices of the new content. -/
def extractSt (S : Storage) (content : List Nat) : Storage × Option PyErr :=
  if (content.length : Int) < S.bytes_expected then
    (S, some (.valueError "bytes content too short"))
  else if ¬ S.is_dynamic ∧ (content.length : Int) > S.bytes_expected then
    (S, some (.valueError "bytes content too long"))
  else
    setAllSt {S with buf := []}
      (S.fields.map (fun nf => (nf.1, FieldVal.bytes (fieldContent content nf.2))))

/-- `BytesStorageABC._set`: full rebuild when empty, per-field `change`
otherwise (stopping at the first raise). -/
def setSt (S : Storage) (supplied : List (String × FieldVal)) :
    Storage × Option PyErr :=
  if S.buf.length == 0 then setAllSt S supplied
  else
    supplied.foldl
      (fun st nv =>
        match st with
        | (S', some e) => (S', some e)
        | (S', none) => changeSt S' nv.1 nv.2)
      (S, none)

/-- `BytesStorageABC.encode`: full-content and field-by-field forms are
mutually exclusive. -/
def encodeSt (S : Storage) (content : List Nat)
    (supplied : List (String × FieldVal)) : Storage × Option PyErr :=
  if content.length ≠ 0 ∧ supplied.length ≠ 0 then
    (S, some (.typeError "takes a message or fields (both given)"))
  else if content.length ≠ 0 then extractSt S content
  else if supplied.length ≠ 0 then setSt S supplied
  else (S, some (.typeError "message is empty"))

/-! ### Layout resolver

Both resolver generations operate on the ordered sub-pattern list, where
each sub-pattern contributes its byte `size` (pattern-level `is_dynamic`
is `size <= 0`), and fill the `start`/`stop` keyword arguments of each
field.  A keyword is `none` while unset; a set `stop` keyword holds a
Python `int | None`, hence the nested option. -/

structure SubKw where
  kwStart : Option Int
  kwStop : Option (Option Int)
  deriving Repr, DecidableEq

/-- `ContinuousBytesStorageStructPatternABC._modify_before_dyn`
(`src/pyiak_instr/types/store/bin/_pattern.py`): forward pass, stopping at
(and including) the first dynamic sub-pattern, whose name is returned. -/
def newBefore (cur : Int) : List (String × Int) →
    List (String × Int × SubKw) × Option String
  | [] => ([], none)
  | (n, sz) :: rest =>
    if sz ≤ 0 then
      ((n, sz, ⟨some cur, none⟩)
        :: rest.map (fun p => (p.1, p.2, (⟨none, none⟩ : SubKw))), some n)
    else
      let r := newBefore (cur + sz) rest
      ((n, sz, ⟨some cur, none⟩) :: r.1, r.2)

/-- `ContinuousBytesStorageStructPatternABC._modify_after_dyn`: backward
pass over the reversed field list; a second dynamic sub-pattern raises
`TypeError("two dynamic field not allowed")`. -/
def newAfterRev (dyn : String) (cur : Int) :
    List (String × Int × SubKw) → Except PyErr (List (String × Int × SubKw))
  | [] => .error (.assertionError "dynamic field not found")
  | (n, sz, kw) :: rest =>
    if sz ≤ 0 then
      if n = dyn then
        .ok ((n, sz, {kw with kwStop := some (if cur ≠ 0 then some cur else none)})
          :: rest)
      else .error (.typeError "two dynamic field not allowed")
    else
      let cur' := cur - sz
      match newAfterRev dyn cur' rest with
      | .error e => .error e
      | .ok rest' => .ok ((n, sz, {kw with kwStart := some cur'}) :: rest')

/-- `ContinuousBytesStorageStructPatternABC._modify_all`: forward pass,
then backward pass when a dynamic field was found. -/
def newModifyAll (subs : List (String × Int)) :
    Except PyErr (List (String × Int × SubKw)) :=
  let r := newBefore 0 subs
  match r.2 with
  | none => .ok r.1
  | some d =>
    match newAfterRev d 0 r.1.reverse with
    | .error e => .error e
    | .ok l => .ok l.reverse

/-- `ContinuousBytesStoragePatternABC._modify_before_dyn`
(`src/pyiak_instr/types/store/_bin.py`): the older generation's forward
pass; fixed fields also receive their `stop` keyword. -/
def oldBefore (cur : Int) : List (String × Int) →
    List (String × Int × SubKw) × Option String
  | [] => ([], none)
  | (n, sz) :: rest =>
    if sz ≤ 0 then
      ((n, sz, ⟨some cur, none⟩)
        :: rest.map (fun p => (p.1, p.2, (⟨none, none⟩ : SubKw))), some n)
    else
      let r := oldBefore (cur + sz) rest
      ((n, sz, ⟨some cur, some (some (cur + sz))⟩) :: r.1, r.2)

/-- `ContinuousBytesStoragePatternABC._modify_after_dyn`: the older
generation's backward pass over the reversed field list.  It mirrors the
source line by line, including `stop -= kw["start"]` (which sets the
running cursor to `+size`) and the absence of any two-dynamic check. -/
def oldAfterRev (dyn : String) (cur : Int) :
    List (String × Int × SubKw) → List (String × Int × SubKw)
  | [] => []
  | (n, sz, kw) :: rest =>
    if n = dyn then
      (n, sz, {kw with kwStop := some (if cur ≠ 0 then some cur else none)})
        :: rest
    else
      let newStart := cur - sz
      let entry := (n, sz,
        { kw with
          kwStart := some newStart
          kwStop := some (if cur ≠ 0 then some cur else none) })
      entry :: oldAfterRev dyn (cur - newStart) rest

/-- `ContinuousBytesStoragePatternABC._modify_all`: the backward pass runs
only when the forward pass found a dynamic field. -/
def oldModifyAll (subs : List (String × Int)) :
    List (String × Int × SubKw) :=
  let r := oldBefore 0 subs
  match r.2 with
  | none => r.1
  | some d => (oldAfterRev d 0 r.1.reverse).reverse

/-! ### Pattern parameter merging

`PatternABC._get_parameters_dict` of `src/pyiak_instr/types/_pattern.py`:
stored parameters are copied, additions are merged (same-key overlap is a
`SyntaxError` unless `changes_allowed`), then `_only_auto_parameters`
membership is a `TypeError`.  Dictionaries are association lists in
insertion order. -/

/-- `dict[k]` (`None` when absent). -/
def pyLookup {V : Type} (l : List (String × V)) (k : String) : Option V :=
  (l.find? (·.1 == k)).map (·.2)

/-- `dict.update`: existing keys keep their position with the new value,
new keys are appended in order. -/
def dictUpdate {V : Type} (kw additions : List (String × V)) :
    List (String × V) :=
  kw.map (fun p => (p.1, ((additions.find? (·.1 == p.1)).map (·.2)).getD p.2))
    ++ additions.filter (fun p => ¬ (kw.map (·.1)).contains p.1)

/-- `PatternABC._get_parameters_dict`. -/
def getParametersDict {V : Type} (kw : List (String × V))
    (changesAllowed : Bool) (additions : List (String × V))
    (autoPars : List String) : Except PyErr (List (String × V)) :=
  if additions.length ≠ 0 ∧ ¬changesAllowed
      ∧ ((kw.map (·.1)).filter (fun k => (additions.map (·.1)).contains k))
        ≠ [] then
    .error (.syntaxError "keyword argument(s) repeated")
  else
    let params := dictUpdate kw additions
    match autoPars.find? (fun a => (params.map (·.1)).contains a) with
    | some a => .error (.typeError (a ++ " can only be set automatically"))
    | none => .ok params

/-! ### Resolved continuous layouts

The shape of the field-struct list a continuous pattern produces: fixed
fields before the dynamic field carry increasing non-negative offsets,
fields after it carry from-the-end negative offsets, and the dynamic
field's `stop` is the first negative backward cursor (`None` when it is
the last field).  Stated over field structs zipped with the byte chunk
each field holds in a buffer. -/

/-- One field zipped with its chunk of the buffer. -/
abbrev ZField := (String × FieldStruct) × List Nat

/-- Fixed fields tiling the buffer forward from byte offset `off`. -/
def preZone (off : Int) : List ZField → Prop
  | [] => True
  | (nf, c) :: rest =>
    nf.2.bytes_expected = (c.length : Int) ∧ 0 < c.length
    ∧ nf.2.start = off ∧ nf.2.stop = some (off + c.length)
    ∧ preZone (off + c.length) rest

/-- Total byte count of the chunks of a zone. -/
def zoneLen (z : List ZField) : Nat := (z.map (·.2.length)).sum

/-- Fixed fields tiling the buffer backward from the end (negative
offsets; the last field's `stop` is `None`). -/
def postZone : List ZField → Prop
  | [] => True
  | (nf, c) :: rest =>
    nf.2.bytes_expected = (c.length : Int) ∧ 0 < c.length
    ∧ nf.2.start = -((c.length : Int) + zoneLen rest)
    ∧ nf.2.stop = (if rest.isEmpty then none else some (-(zoneLen rest : Int)))
    ∧ postZone rest

/-- The dynamic field's resolved offsets between zones of total sizes
`pre` and `post`. -/
def dynField (f : FieldStruct) (pre post : Nat) : Prop :=
  f.bytes_expected = 0 ∧ f.start = (pre : Int)
    ∧ f.stop = (if post = 0 then none else some (-(post : Int)))

/-- A zipped resolved continuous layout: either fully fixed, or one
dynamic field between a forward and a backward zone. -/
def zLayout (z : List ZField) : Prop :=
  preZone 0 z
  ∨ ∃ pre d post, z = pre ++ [d] ++ post ∧ preZone 0 pre
      ∧ dynField d.1.2 (zoneLen pre) (zoneLen post) ∧ postZone post

/-- The buffer a zipped layout covers: its chunks laid end to end. -/
def zBuf (z : List ZField) : List Nat := (z.map (·.2)).flatten

/-- The storage a zipped layout denotes. -/
def zStorage (z : List ZField) : Storage := ⟨z.map (·.1), zBuf z⟩

/-- A fully fixed continuous layout over bare field structs (no chunks):
consecutive positive extents from offset `off`. -/
def preStructs (off : Int) : List (String × FieldStruct) → Prop
  | [] => True
  | nf :: rest =>
    0 < nf.2.bytes_expected ∧ nf.2.start = off
    ∧ nf.2.stop = some (off + nf.2.bytes_expected)
    ∧ preStructs (off + nf.2.bytes_expected) rest

/-- Zip a fully fixed field list with consecutive chunks of `content`. -/
def chunkFields (content : List Nat) :
    List (String × FieldStruct) → List ZField
  | [] => []
  | nf :: rest =>
    (nf, content.take nf.2.bytes_expected.toNat)
      :: chunkFields (content.drop nf.2.bytes_expected.toNat) rest

/-- What one field contributes to the buffer `_set_all` assembles: the
encoded supplied content, else the field's default, else nothing (the
error branch never contributes under `_check_fields_list`). -/
def setContribution (supplied : List (String × FieldVal))
    (nf : String × FieldStruct) : List Nat :=
  match (supplied.find? (·.1 == nf.1)).map (·.2) with
  | some raw =>
    match encodeContent nf.2 raw with
    | .ok c => c
    | .error _ => []
  | none => if nf.2.has_default then nf.2.default else []

/-- Whatever content is supplied for field `nf`, if any, passes
`_encode_content` against `nf`'s structure. -/
def suppliedEncodes (supplied : List (String × FieldVal))
    (nf : String × FieldStruct) : Bool :=
  match pyLookup supplied nf.1 with
  | some raw => (encodeContent nf.2 raw).isOk
  | none => true

/-! ### Lemmas and theorems -/

theorem pyIdx_nonneg_le {L : Nat} {i : Int} (_h0 : 0 ≤ i) (_hL : i ≤ (L : Int)) :
    pyIdx L i = i.toNat := by
  unfold pyIdx
  rw [if_neg (by omega)]
  have : i.toNat ≤ L := by omega
  omega

theorem pyIdx_neg {L : Nat} {i : Int} (hneg : i < 0) :
    pyIdx L i = ((L : Int) + i).toNat := by
  unfold pyIdx
  rw [if_pos hneg]

/-- Slice with in-range non-negative resolved bounds is `take`/`drop`. -/
theorem pySliceGet_eq_seg {c : List Nat} {a b : Nat} {start : Int}
    {stop : Option Int}
    (hb : pyBounds c.length start stop = (a, b)) :
    pySliceGet c start stop = (c.take b).drop a := by
  unfold pySliceGet
  rw [hb]

theorem pySliceSet_eq_splice {c new : List Nat} {a b : Nat} {start : Int}
    {stop : Option Int}
    (hb : pyBounds c.length start stop = (a, b)) (hab : a ≤ b) :
    pySliceSet c start stop new = c.take a ++ new ++ c.drop b := by
  unfold pySliceSet
  rw [hb]
  simp [Nat.max_eq_right hab]

/-- The central bound computation: in a buffer `A ++ X ++ B`, the slice
addressing `X` by a non-negative start `|A|` resolves to `(|A|, |A|+|X|)`
whether the stop is given positively (`|A|+|X|`), negatively (`-|B|`), or
as `None` when `B = []`. -/
theorem pyBounds_mid_pos (A X B : List Nat) :
    pyBounds (A ++ X ++ B).length (A.length : Int)
      (some ((A.length : Int) + X.length)) = (A.length, A.length + X.length) := by
  have h1 : pyIdx (A ++ X ++ B).length (A.length : Int) = A.length := by
    rw [pyIdx_nonneg_le (by positivity) (by simp; omega)]
    simp
  have h2 : pyIdx (A ++ X ++ B).length ((A.length : Int) + X.length)
      = A.length + X.length := by
    rw [pyIdx_nonneg_le (by positivity)
      (by simp only [List.length_append]; push_cast; omega)]
    omega
  exact Prod.ext h1 h2

theorem pyBounds_mid_neg (A X B : List Nat) (hX : 0 < X.length)
    (hB : 0 < B.length) :
    pyBounds (A ++ X ++ B).length (-((X.length : Int) + B.length))
      (some (-(B.length : Int))) = (A.length, A.length + X.length) := by
  have h1 : pyIdx (A ++ X ++ B).length (-((X.length : Int) + B.length))
      = A.length := by
    rw [pyIdx_neg (by omega)]
    simp only [List.length_append]
    omega
  have h2 : pyIdx (A ++ X ++ B).length (-(B.length : Int))
      = A.length + X.length := by
    rw [pyIdx_neg (by omega)]
    simp only [List.length_append]
    omega
  exact Prod.ext h1 h2

theorem pyBounds_mid_neg_none (A X : List Nat) (hX : 0 < X.length) :
    pyBounds (A ++ X).length (-(X.length : Int)) none
      = (A.length, A.length + X.length) := by
  have h1 : pyIdx (A ++ X).length (-(X.length : Int)) = A.length := by
    rw [pyIdx_neg (by omega)]
    simp only [List.length_append]
    omega
  exact Prod.ext h1 (by simp [pyBounds])

theorem pyBounds_mid_pos_neg (A X B : List Nat) (hB : 0 < B.length) :
    pyBounds (A ++ X ++ B).length (A.length : Int) (some (-(B.length : Int)))
      = (A.length, A.length + X.length) := by
  have h1 : pyIdx (A ++ X ++ B).length (A.length : Int) = A.length := by
    rw [pyIdx_nonneg_le (by positivity)
      (by simp only [List.length_append]; push_cast; omega)]
    simp
  have h2 : pyIdx (A ++ X ++ B).length (-(B.length : Int))
      = A.length + X.length := by
    rw [pyIdx_neg (by omega)]
    simp only [List.length_append]
    omega
  exact Prod.ext h1 h2

theorem pyBounds_mid_pos_none (A X : List Nat) :
    pyBounds (A ++ X).length (A.length : Int) none
      = (A.length, A.length + X.length) := by
  have h1 : pyIdx (A ++ X).length (A.length : Int) = A.length := by
    rw [pyIdx_nonneg_le (by positivity)
      (by simp only [List.length_append]; push_cast; omega)]
    simp
  exact Prod.ext h1 (by simp [pyBounds])

/-- Reading a slice whose resolved bounds isolate `X` in `A ++ X ++ B`
yields `X`. -/
theorem pySliceGet_of_bounds {c A X B : List Nat} {start : Int}
    {stop : Option Int} (hc : c = A ++ X ++ B)
    (hb : pyBounds c.length start stop = (A.length, A.length + X.length)) :
    pySliceGet c start stop = X := by
  rw [pySliceGet_eq_seg hb, hc]
  have htake : ((A ++ X ++ B).take (A.length + X.length)) = A ++ X := by
    have h := List.take_left (A ++ X) B
    simp only [List.length_append] at h
    exact h
  rw [htake]
  exact List.drop_left A X

/-- Writing a slice whose resolved bounds isolate `X` in `A ++ X ++ B`
replaces `X`. -/
theorem pySliceSet_of_bounds {c A X B Y : List Nat} {start : Int}
    {stop : Option Int} (hc : c = A ++ X ++ B)
    (hb : pyBounds c.length start stop = (A.length, A.length + X.length)) :
    pySliceSet c start stop Y = A ++ Y ++ B := by
  rw [pySliceSet_eq_splice hb (by omega), hc]
  have htake : ((A ++ X ++ B).take A.length) = A := by
    rw [List.append_assoc]
    exact List.take_left A (X ++ B)
  have hdrop : ((A ++ X ++ B).drop (A.length + X.length)) = B := by
    have h := List.drop_left (A ++ X) B
    simp only [List.length_append] at h
    exact h
  rw [htake, hdrop]

theorem Fmt.width_pos (f : Fmt) : 0 < f.width := by cases f <;> simp [width]

theorem natToBytesBE_length (w v : Nat) : (natToBytesBE w v).length = w := by
  induction w generalizing v with
  | zero => rfl
  | succ w ih => simp [natToBytesBE, ih]

theorem natFromBytesBE_append_singleton (bs : List Nat) (b : Nat) :
    natFromBytesBE (bs ++ [b]) = natFromBytesBE bs * 256 + b := by
  simp [natFromBytesBE]

theorem natFromBytesBE_natToBytesBE {w v : Nat} (h : v < 2 ^ (8 * w)) :
    natFromBytesBE (natToBytesBE w v) = v := by
  induction w generalizing v with
  | zero =>
    simp [natToBytesBE, natFromBytesBE]
    omega
  | succ w ih =>
    rw [natToBytesBE, natFromBytesBE_append_singleton, ih]
    · omega
    · have h8 : 8 * (w + 1) = 8 * w + 8 := by ring
      rw [h8, pow_add] at h
      have : (256 : Nat) ^ 1 ≤ 2 ^ 8 := by norm_num
      omega

theorem wordToBytes_length (f : Fmt) (big : Bool) (v : Int) :
    (wordToBytes f big v).length = f.width := by
  unfold wordToBytes
  cases big <;> simp [natToBytesBE_length]

theorem emod_of_neg_in_window {M v : Int} (_hM : 0 < M) (h1 : -M ≤ v)
    (h2 : v < 0) : v % M = v + M := by
  have hrw : (v + M * 1) % M = v % M := @Int.add_mul_emod_self_left v M 1
  have : v % M = (v + M) % M := by
    rw [← hrw]; ring_nf
  rw [this, Int.emod_eq_of_lt (by omega) (by omega)]

theorem wordFromBytes_wordToBytes {f : Fmt} {big : Bool} {v : Int}
    (h : f.inRange v) :
    wordFromBytes f big (wordToBytes f big v) = v := by
  have hw := f.width_pos
  have hsplit : (2 ^ (8 * f.width) : Nat) = 2 ^ (8 * f.width - 1) * 2 := by
    have h1 : 8 * f.width - 1 + 1 = 8 * f.width := by omega
    conv_lhs => rw [← h1]
    rw [pow_succ]
  have hM : (0 : Int) < (2 : Int) ^ (8 * f.width) := by positivity
  have hpow : ((2 : Int) ^ (8 * f.width)) = ((2 ^ (8 * f.width) : Nat) : Int) := by
    push_cast; ring
  have hmod0 : 0 ≤ v % ((2 : Int) ^ (8 * f.width)) := Int.emod_nonneg v (by omega)
  have hmod1 : v % ((2 : Int) ^ (8 * f.width)) < (2 : Int) ^ (8 * f.width) :=
    Int.emod_lt_of_pos v hM
  have hcast : (((v % ((2 : Int) ^ (8 * f.width))).toNat : Int))
      = v % ((2 : Int) ^ (8 * f.width)) := Int.toNat_of_nonneg hmod0
  have hulim : (v % ((2 : Int) ^ (8 * f.width))).toNat < 2 ^ (8 * f.width) := by
    omega
  unfold wordToBytes wordFromBytes
  have hbytes : (if big = true
      then (if big = true
        then natToBytesBE f.width ((v % ((2 : Int) ^ (8 * f.width))).toNat)
        else (natToBytesBE f.width
          ((v % ((2 : Int) ^ (8 * f.width))).toNat)).reverse)
      else (if big = true
        then natToBytesBE f.width ((v % ((2 : Int) ^ (8 * f.width))).toNat)
        else (natToBytesBE f.width
          ((v % ((2 : Int) ^ (8 * f.width))).toNat)).reverse).reverse)
      = natToBytesBE f.width ((v % ((2 : Int) ^ (8 * f.width))).toNat) := by
    cases big <;> simp
  simp only [hbytes, natFromBytesBE_natToBytesBE hulim]
  unfold Fmt.inRange at h
  by_cases hs : f.signed = true
  · rw [hs] at h
    simp only [if_true] at h
    rcases le_or_lt 0 v with hv | hv
    · have hveq : v % ((2 : Int) ^ (8 * f.width)) = v :=
        Int.emod_eq_of_lt hv (by omega)
      rw [if_neg (by omega)]
      omega
    · have hveq : v % ((2 : Int) ^ (8 * f.width))
          = v + (2 : Int) ^ (8 * f.width) :=
        emod_of_neg_in_window hM (by omega) hv
      rw [if_pos (by refine ⟨hs, ?_⟩; omega)]
      omega
  · simp only [hs] at h
    simp only [Bool.false_eq_true, if_false] at h
    have hveq : v % ((2 : Int) ^ (8 * f.width)) = v :=
      Int.emod_eq_of_lt h.1 (by omega)
    rw [if_neg (by simp [hs])]
    omega

theorem chunksAux_fuel_irrel {w : Nat} (hw : 0 < w) :
    ∀ fuel₁ fuel₂ (l : List Nat), l.length ≤ fuel₁ → l.length ≤ fuel₂ →
      chunksAux w fuel₁ l = chunksAux w fuel₂ l := by
  intro fuel₁
  induction fuel₁ with
  | zero =>
    intro fuel₂ l h1 _h2
    have : l = [] := List.length_eq_zero.mp (by omega)
    subst this
    cases fuel₂ <;> rfl
  | succ fuel₁ ih =>
    intro fuel₂ l h1 h2
    match l with
    | [] => cases fuel₂ <;> rfl
    | x :: xs =>
      match fuel₂ with
      | 0 => simp at h2
      | fuel₂ + 1 =>
        show (x :: xs).take w :: chunksAux w fuel₁ ((x :: xs).drop w)
            = (x :: xs).take w :: chunksAux w fuel₂ ((x :: xs).drop w)
        have hlen : ((x :: xs).drop w).length ≤ fuel₁ := by
          simp only [List.length_drop, List.length_cons] at h1 ⊢
          omega
        have hlen2 : ((x :: xs).drop w).length ≤ fuel₂ := by
          simp only [List.length_drop, List.length_cons] at h2 ⊢
          omega
        rw [ih fuel₂ _ hlen hlen2]

theorem chunksOfWidth_append {w : Nat} (hw : 0 < w) {X r : List Nat}
    (hX : X.length = w) :
    chunksOfWidth w (X ++ r) = X :: chunksOfWidth w r := by
  unfold chunksOfWidth
  match X with
  | [] =>
    simp only [List.length_nil] at hX
    omega
  | x :: xs =>
    have hlen : ((x :: xs) ++ r).length = (xs.length + r.length) + 1 := by
      simp only [List.length_append, List.length_cons]
      omega
    rw [hlen]
    show ((x :: xs) ++ r).take w :: chunksAux w (xs.length + r.length)
        (((x :: xs) ++ r).drop w) = _
    have htake : ((x :: xs) ++ r).take w = x :: xs := by
      rw [← hX]
      exact List.take_left (x :: xs) r
    have hdrop : ((x :: xs) ++ r).drop w = r := by
      rw [← hX]
      exact List.drop_left (x :: xs) r
    rw [htake, hdrop,
      chunksAux_fuel_irrel hw (xs.length + r.length) r.length r (by omega)
        (by omega)]

/-- Codec round-trip on word sequences: decoding an encoded sequence of
in-range values restores the sequence. -/
theorem decodeWords_encodeWords {f : Fmt} {big : Bool} {vals : List Int}
    (h : ∀ v ∈ vals, f.inRange v) :
    decodeWords f big (encodeWords f big vals) = vals := by
  induction vals with
  | nil => rfl
  | cons v vs ih =>
    unfold decodeWords encodeWords
    simp only [List.map_cons, List.flatten_cons]
    rw [chunksOfWidth_append f.width_pos (wordToBytes_length f big v)]
    simp only [List.map_cons]
    rw [wordFromBytes_wordToBytes (h v (by simp))]
    have := ih (fun x hx => h x (by simp [hx]))
    unfold decodeWords encodeWords at this
    rw [this]

theorem zBuf_nil : zBuf [] = [] := rfl

theorem zBuf_cons (pc : ZField) (z : List ZField) :
    zBuf (pc :: z) = pc.2 ++ zBuf z := by
  simp [zBuf]

theorem zBuf_append (z₁ z₂ : List ZField) :
    zBuf (z₁ ++ z₂) = zBuf z₁ ++ zBuf z₂ := by
  simp [zBuf]

theorem zBuf_length (z : List ZField) : (zBuf z).length = zoneLen z := by
  induction z with
  | nil => rfl
  | cons pc rest ih =>
    rw [zBuf_cons]
    simp only [List.length_append, zoneLen, List.map_cons, List.sum_cons, ih]

theorem zoneLen_cons (pc : ZField) (z : List ZField) :
    zoneLen (pc :: z) = pc.2.length + zoneLen z := by
  simp [zoneLen]

theorem postZone_zoneLen_pos {z : List ZField} (hz : postZone z)
    (hne : z ≠ []) : 0 < zoneLen z := by
  match z with
  | [] => exact absurd rfl hne
  | pc :: rest =>
    obtain ⟨-, hc, -, -, -⟩ := hz
    rw [zoneLen_cons]
    omega

/-- Resolved bounds of a field of the forward zone, relative to a prefix
`A` already laid down and an arbitrary suffix. -/
theorem preZone_bounds :
    ∀ (z : List ZField) (A suffix : List Nat), preZone (A.length : Int) z →
      ∀ (z₁ : List ZField) (pc : ZField) (z₂ : List ZField), z = z₁ ++ pc :: z₂ →
        pyBounds (A ++ zBuf z ++ suffix).length pc.1.2.start pc.1.2.stop
          = ((A ++ zBuf z₁).length, (A ++ zBuf z₁).length + pc.2.length) := by
  intro z A suffix hpre z₁
  induction z₁ generalizing z A with
  | nil =>
    intro pc z₂ hsplit
    subst hsplit
    simp only [List.nil_append] at hpre ⊢
    obtain ⟨-, -, hstart, hstop, -⟩ := hpre
    rw [hstart, hstop, zBuf_cons]
    have hassoc : A ++ (pc.2 ++ zBuf z₂) ++ suffix
        = A ++ pc.2 ++ (zBuf z₂ ++ suffix) := by
      simp [List.append_assoc]
    rw [hassoc]
    have := pyBounds_mid_pos A pc.2 (zBuf z₂ ++ suffix)
    simpa using this
  | cons q z₁' ih =>
    intro pc z₂ hsplit
    subst hsplit
    simp only [List.cons_append] at hpre ⊢
    obtain ⟨-, -, -, -, htail⟩ := hpre
    have htail' : preZone ((A ++ q.2).length : Int) (z₁' ++ pc :: z₂) := by
      have : ((A ++ q.2).length : Int) = (A.length : Int) + q.2.length := by
        simp
      rw [this]
      exact htail
    have hres := ih (z₁' ++ pc :: z₂) (A ++ q.2) htail' pc z₂ rfl
    have hbuf : A ++ zBuf (q :: (z₁' ++ pc :: z₂)) ++ suffix
        = (A ++ q.2) ++ zBuf (z₁' ++ pc :: z₂) ++ suffix := by
      rw [zBuf_cons]
      simp [List.append_assoc]
    have hpref : A ++ zBuf (q :: z₁') = (A ++ q.2) ++ zBuf z₁' := by
      rw [zBuf_cons]
      simp [List.append_assoc]
    rw [hbuf, hpref]
    exact hres

/-- Resolved bounds of a field of the backward zone, relative to a prefix
`A`; the zone ends the buffer. -/
theorem postZone_bounds :
    ∀ (z : List ZField) (A : List Nat), postZone z →
      ∀ (z₁ : List ZField) (pc : ZField) (z₂ : List ZField), z = z₁ ++ pc :: z₂ →
        pyBounds (A ++ zBuf z).length pc.1.2.start pc.1.2.stop
          = ((A ++ zBuf z₁).length, (A ++ zBuf z₁).length + pc.2.length) := by
  intro z A hpost z₁
  induction z₁ generalizing z A with
  | nil =>
    intro pc z₂ hsplit
    subst hsplit
    simp only [List.nil_append] at hpost ⊢
    obtain ⟨-, hc, hstart, hstop, htail⟩ := hpost
    rw [hstart, hstop, zBuf_cons]
    by_cases hz₂ : z₂ = []
    · subst hz₂
      simp only [List.isEmpty_nil, if_true, zBuf_nil, List.append_nil]
      have hlen0 : zoneLen ([] : List ZField) = 0 := rfl
      have := pyBounds_mid_neg_none A pc.2 hc
      rw [hlen0]
      simpa using this
    · have hne : z₂.isEmpty = false := by
        simpa [List.isEmpty_iff] using hz₂
      rw [hne]
      simp only [Bool.false_eq_true, if_false]
      have hlen : zoneLen z₂ = (zBuf z₂).length := (zBuf_length z₂).symm
      have hpos : 0 < (zBuf z₂).length := by
        rw [zBuf_length]
        exact postZone_zoneLen_pos htail hz₂
      have := pyBounds_mid_neg A pc.2 (zBuf z₂) hc hpos
      rw [hlen]
      have hassoc : A ++ (pc.2 ++ zBuf z₂) = A ++ pc.2 ++ zBuf z₂ := by
        simp [List.append_assoc]
      rw [hassoc]
      simpa using this
  | cons q z₁' ih =>
    intro pc z₂ hsplit
    subst hsplit
    simp only [List.cons_append] at hpost ⊢
    obtain ⟨-, -, -, -, htail⟩ := hpost
    have hres := ih (z₁' ++ pc :: z₂) (A ++ q.2) htail pc z₂ rfl
    have hbuf : A ++ zBuf (q :: (z₁' ++ pc :: z₂))
        = (A ++ q.2) ++ zBuf (z₁' ++ pc :: z₂) := by
      rw [zBuf_cons]
      simp [List.append_assoc]
    have hpref : A ++ zBuf (q :: z₁') = (A ++ q.2) ++ zBuf z₁' := by
      rw [zBuf_cons]
      simp [List.append_assoc]
    rw [hbuf, hpref]
    exact hres

/-- How two one-point decompositions of the same list align. -/
theorem cons_split_cases {α : Type} :
    ∀ (l₁ : List α) (x : α) (r₁ : List α) (l₂ : List α) (y : α) (r₂ : List α),
      l₁ ++ x :: r₁ = l₂ ++ y :: r₂ →
        (l₁ = l₂ ∧ x = y ∧ r₁ = r₂)
        ∨ (∃ m, l₂ = l₁ ++ x :: m ∧ r₁ = m ++ y :: r₂)
        ∨ (∃ m, l₁ = l₂ ++ y :: m ∧ r₂ = m ++ x :: r₁) := by
  intro l₁
  induction l₁ with
  | nil =>
    intro x r₁ l₂ y r₂ h
    match l₂ with
    | [] =>
      simp only [List.nil_append, List.cons.injEq] at h
      exact Or.inl ⟨rfl, h.1, h.2⟩
    | p :: l₂' =>
      simp only [List.nil_append, List.cons_append, List.cons.injEq] at h
      exact Or.inr (Or.inl ⟨l₂', by simp [h.1], h.2⟩)
  | cons a l₁' ih =>
    intro x r₁ l₂ y r₂ h
    match l₂ with
    | [] =>
      simp only [List.cons_append, List.nil_append, List.cons.injEq] at h
      exact Or.inr (Or.inr ⟨l₁', by simp [h.1], h.2.symm⟩)
    | p :: l₂' =>
      simp only [List.cons_append, List.cons.injEq] at h
      rcases ih x r₁ l₂' y r₂ h.2 with h1 | h2 | h3
      · exact Or.inl ⟨by simp [h.1, h1.1], h1.2.1, h1.2.2⟩
      · obtain ⟨m, hm1, hm2⟩ := h2
        exact Or.inr (Or.inl ⟨m, by simp [h.1, hm1], hm2⟩)
      · obtain ⟨m, hm1, hm2⟩ := h3
        exact Or.inr (Or.inr ⟨m, by simp [h.1, hm1], hm2⟩)

/-- Resolved bounds of the dynamic field sitting between buffer segments
`A` and `Q`. -/
theorem dynField_bounds {f : FieldStruct} (A D Q : List Nat)
    (hd : dynField f A.length Q.length) :
    pyBounds (A ++ D ++ Q).length f.start f.stop
      = (A.length, A.length + D.length) := by
  obtain ⟨-, hstart, hstop⟩ := hd
  rw [hstart, hstop]
  by_cases hq : Q.length = 0
  · have hQ : Q = [] := List.length_eq_zero.mp hq
    subst hQ
    simp only [if_pos rfl, List.append_nil]
    exact pyBounds_mid_pos_none A D
  · rw [if_neg hq]
    exact pyBounds_mid_pos_neg A D Q (by omega)

/-- The coverage theorem's core: in a resolved continuous layout, every
field's slice resolves to exactly the span of its own chunk. -/
theorem zLayout_split_bounds {z : List ZField} (hz : zLayout z)
    {Z₁ Z₂ : List ZField} {pc : ZField} (hsplit : z = Z₁ ++ pc :: Z₂) :
    pyBounds (zBuf z).length pc.1.2.start pc.1.2.stop
      = ((zBuf Z₁).length, (zBuf Z₁).length + pc.2.length) := by
  cases hz with
  | inl hpre =>
    have h := preZone_bounds z [] [] (by simpa using hpre) Z₁ pc Z₂ hsplit
    simpa using h
  | inr hdyn =>
    obtain ⟨pre, d, post, hzeq, hpreZ, hd, hpostZ⟩ := hdyn
    have hzeq' : z = pre ++ d :: post := by simpa using hzeq
    have halign := cons_split_cases Z₁ pc Z₂ pre d post (hsplit ▸ hzeq')
    have hbufz : zBuf z = zBuf pre ++ d.2 ++ zBuf post := by
      rw [hzeq']
      rw [show pre ++ d :: post = (pre ++ [d]) ++ post by simp]
      rw [zBuf_append, zBuf_append]
      simp [zBuf]
    rcases halign with ⟨h1, h2, h3⟩ | ⟨m, hm1, hm2⟩ | ⟨m, hm1, hm2⟩
    · -- the changed field is the dynamic one
      subst h1; subst h3; subst h2
      have hd' : dynField pc.1.2 (zBuf Z₁).length (zBuf Z₂).length := by
        rw [zBuf_length, zBuf_length]
        exact hd
      have hres := dynField_bounds (zBuf Z₁) pc.2 (zBuf Z₂) hd'
      rw [hbufz]
      exact hres
    · -- the field lies in the forward zone
      subst hm1; subst hm2
      have hpre0 : preZone (([] : List Nat).length : Int) (Z₁ ++ pc :: m) := by
        simpa using hpreZ
      have h := preZone_bounds (Z₁ ++ pc :: m) [] (d.2 ++ zBuf post) hpre0
        Z₁ pc m rfl
      have hb : zBuf z = [] ++ zBuf (Z₁ ++ pc :: m) ++ (d.2 ++ zBuf post) := by
        rw [hbufz]
        simp [List.append_assoc]
      rw [hb]
      simpa using h
    · -- the field lies in the backward zone
      subst hm1; subst hm2
      have h := postZone_bounds (m ++ pc :: Z₂) (zBuf pre ++ d.2) hpostZ
        m pc Z₂ rfl
      have hb : zBuf z = (zBuf pre ++ d.2) ++ zBuf (m ++ pc :: Z₂) := by
        rw [hbufz]
      have hZ₁ : zBuf (pre ++ d :: m) = (zBuf pre ++ d.2) ++ zBuf m := by
        rw [show pre ++ d :: m = (pre ++ [d]) ++ m by simp]
        rw [zBuf_append, zBuf_append]
        simp [zBuf]
      rw [hb, hZ₁]
      exact h

/-- Layout coverage, read form: every field of a resolved continuous
layout reads back exactly its own chunk of the buffer. -/
theorem zLayout_content {z Z₁ Z₂ : List ZField} {pc : ZField}
    (hz : zLayout z) (hsplit : z = Z₁ ++ pc :: Z₂) :
    fieldContent (zBuf z) pc.1.2 = pc.2 := by
  have hc : zBuf z = zBuf Z₁ ++ pc.2 ++ zBuf Z₂ := by
    rw [hsplit, show Z₁ ++ pc :: Z₂ = (Z₁ ++ [pc]) ++ Z₂ by simp,
      zBuf_append, zBuf_append]
    simp [zBuf]
  exact pySliceGet_of_bounds hc (zLayout_split_bounds hz hsplit)

/-- Layout coverage, write form: splicing new bytes at a field's slice
replaces exactly that field's chunk. -/
theorem zLayout_update {z Z₁ Z₂ : List ZField} {pc : ZField} (Y : List Nat)
    (hz : zLayout z) (hsplit : z = Z₁ ++ pc :: Z₂) :
    pySliceSet (zBuf z) pc.1.2.start pc.1.2.stop Y
      = zBuf (Z₁ ++ (pc.1, Y) :: Z₂) := by
  have hc : zBuf z = zBuf Z₁ ++ pc.2 ++ zBuf Z₂ := by
    rw [hsplit, show Z₁ ++ pc :: Z₂ = (Z₁ ++ [pc]) ++ Z₂ by simp,
      zBuf_append, zBuf_append]
    simp [zBuf]
  have h := @pySliceSet_of_bounds (zBuf z) (zBuf Z₁) pc.2 (zBuf Z₂) Y
    pc.1.2.start pc.1.2.stop hc (zLayout_split_bounds hz hsplit)
  rw [h]
  rw [show Z₁ ++ (pc.1, Y) :: Z₂ = (Z₁ ++ [(pc.1, Y)]) ++ Z₂ by simp,
    zBuf_append, zBuf_append]
  simp [zBuf]

theorem zoneLen_append (z₁ z₂ : List ZField) :
    zoneLen (z₁ ++ z₂) = zoneLen z₁ + zoneLen z₂ := by
  simp [zoneLen]

/-- Replacing a chunk by one of the same length preserves the forward
zone. -/
theorem preZone_replace :
    ∀ (z₁ : List ZField) (pc : ZField) (z₂ : List ZField) (off : Int)
      (Y : List Nat), preZone off (z₁ ++ pc :: z₂) → Y.length = pc.2.length →
      preZone off (z₁ ++ (pc.1, Y) :: z₂) := by
  intro z₁
  induction z₁ with
  | nil =>
    intro pc z₂ off Y hpre hY
    simp only [List.nil_append] at hpre ⊢
    obtain ⟨h1, h2, h3, h4, h5⟩ := hpre
    exact ⟨by rw [hY]; exact h1, by omega, h3, by rw [hY]; exact h4,
      by rw [hY]; exact h5⟩
  | cons q z₁' ih =>
    intro pc z₂ off Y hpre hY
    simp only [List.cons_append] at hpre ⊢
    obtain ⟨h1, h2, h3, h4, h5⟩ := hpre
    exact ⟨h1, h2, h3, h4, ih pc z₂ _ Y h5 hY⟩

/-- Replacing a chunk by one of the same length preserves the backward
zone. -/
theorem postZone_replace :
    ∀ (z₁ : List ZField) (pc : ZField) (z₂ : List ZField) (Y : List Nat),
      postZone (z₁ ++ pc :: z₂) → Y.length = pc.2.length →
      postZone (z₁ ++ (pc.1, Y) :: z₂) := by
  intro z₁
  induction z₁ with
  | nil =>
    intro pc z₂ Y hpost hY
    simp only [List.nil_append] at hpost ⊢
    obtain ⟨h1, h2, h3, h4, h5⟩ := hpost
    exact ⟨by rw [hY]; exact h1, by omega, by rw [hY]; exact h3, h4, h5⟩
  | cons q z₁' ih =>
    intro pc z₂ Y hpost hY
    simp only [List.cons_append] at hpost ⊢
    obtain ⟨h1, h2, h3, h4, h5⟩ := hpost
    have hlen : zoneLen (z₁' ++ (pc.1, Y) :: z₂) = zoneLen (z₁' ++ pc :: z₂) := by
      rw [zoneLen_append, zoneLen_append, zoneLen_cons, zoneLen_cons]
      simp [hY]
    have hempty : (z₁' ++ (pc.1, Y) :: z₂).isEmpty
        = (z₁' ++ pc :: z₂).isEmpty := by
      cases z₁' <;> simp
    exact ⟨h1, h2, by rw [hlen]; exact h3, by rw [hlen, hempty]; exact h4,
      ih pc z₂ Y h5 hY⟩

/-- No field of a forward zone is dynamic. -/
theorem preZone_no_dyn :
    ∀ (z₁ : List ZField) (pc : ZField) (z₂ : List ZField) (off : Int),
      preZone off (z₁ ++ pc :: z₂) → pc.1.2.bytes_expected ≠ 0 := by
  intro z₁
  induction z₁ with
  | nil =>
    intro pc z₂ off hpre
    simp only [List.nil_append] at hpre
    obtain ⟨h1, h2, -, -, -⟩ := hpre
    omega
  | cons q z₁' ih =>
    intro pc z₂ off hpre
    simp only [List.cons_append] at hpre
    exact ih pc z₂ _ hpre.2.2.2.2

/-- No field of a backward zone is dynamic. -/
theorem postZone_no_dyn :
    ∀ (z₁ : List ZField) (pc : ZField) (z₂ : List ZField),
      postZone (z₁ ++ pc :: z₂) → pc.1.2.bytes_expected ≠ 0 := by
  intro z₁
  induction z₁ with
  | nil =>
    intro pc z₂ hpost
    simp only [List.nil_append] at hpost
    obtain ⟨h1, h2, -, -, -⟩ := hpost
    omega
  | cons q z₁' ih =>
    intro pc z₂ hpost
    simp only [List.cons_append] at hpost
    exact ih pc z₂ hpost.2.2.2.2

/-- Replacing a field's chunk preserves the layout: any chunk for the
dynamic field, a same-length chunk for a fixed field. -/
theorem zLayout_replace {z Z₁ Z₂ : List ZField} {pc : ZField} {Y : List Nat}
    (hz : zLayout z) (hsplit : z = Z₁ ++ pc :: Z₂)
    (hok : pc.1.2.bytes_expected = 0 ∨ Y.length = pc.2.length) :
    zLayout (Z₁ ++ (pc.1, Y) :: Z₂) := by
  cases hz with
  | inl hpre =>
    left
    rw [hsplit] at hpre
    have hfix : Y.length = pc.2.length := by
      rcases hok with hdyn | hlen
      · exact absurd hdyn (preZone_no_dyn Z₁ pc Z₂ 0 hpre)
      · exact hlen
    exact preZone_replace Z₁ pc Z₂ 0 Y hpre hfix
  | inr hdyn =>
    obtain ⟨pre, d, post, hzeq, hpreZ, hd, hpostZ⟩ := hdyn
    have hzeq' : z = pre ++ d :: post := by simpa using hzeq
    have halign := cons_split_cases Z₁ pc Z₂ pre d post (hsplit ▸ hzeq')
    rcases halign with ⟨h1, h2, h3⟩ | ⟨m, hm1, hm2⟩ | ⟨m, hm1, hm2⟩
    · -- replacing the dynamic field's chunk: zones untouched
      subst h1; subst h3; subst h2
      right
      exact ⟨Z₁, (pc.1, Y), Z₂, by simp, hpreZ, hd, hpostZ⟩
    · -- replacing inside the forward zone
      subst hm1; subst hm2
      have hfix : Y.length = pc.2.length := by
        rcases hok with hdyn0 | hlen
        · exact absurd hdyn0 (preZone_no_dyn Z₁ pc m 0 hpreZ)
        · exact hlen
      right
      refine ⟨Z₁ ++ (pc.1, Y) :: m, d, post, by simp, ?_, ?_, hpostZ⟩
      · exact preZone_replace Z₁ pc m 0 Y hpreZ hfix
      · have hlen : zoneLen (Z₁ ++ (pc.1, Y) :: m)
            = zoneLen (Z₁ ++ pc :: m) := by
          rw [zoneLen_append, zoneLen_append, zoneLen_cons, zoneLen_cons]
          simp [hfix]
        rw [hlen]
        exact hd
    · -- replacing inside the backward zone
      subst hm1; subst hm2
      have hfix : Y.length = pc.2.length := by
        rcases hok with hdyn0 | hlen
        · exact absurd hdyn0 (postZone_no_dyn m pc Z₂ hpostZ)
        · exact hlen
      right
      refine ⟨pre, d, m ++ (pc.1, Y) :: Z₂, by simp, hpreZ, ?_, ?_⟩
      · have hlen : zoneLen (m ++ (pc.1, Y) :: Z₂)
            = zoneLen (m ++ pc :: Z₂) := by
          rw [zoneLen_append, zoneLen_append, zoneLen_cons, zoneLen_cons]
          simp [hfix]
        rw [hlen]
        exact hd
      · exact postZone_replace m pc Z₂ Y hpostZ hfix

/-- With distinct field names, `self._f[name]` finds exactly the split
field. -/
theorem zStorage_lookup :
    ∀ (Z₁ : List ZField) (pc : ZField) (Z₂ : List ZField),
      ((Z₁ ++ pc :: Z₂).map (fun q => q.1.1)).Nodup →
      (zStorage (Z₁ ++ pc :: Z₂)).lookup pc.1.1 = some pc.1.2 := by
  intro Z₁
  induction Z₁ with
  | nil =>
    intro pc Z₂ _h
    simp [zStorage, Storage.lookup, List.find?]
  | cons q Z₁' ih =>
    intro pc Z₂ hnodup
    simp only [List.cons_append, List.map_cons, List.nodup_cons] at hnodup
    have hqname : ¬(q.1.1 == pc.1.1) = true := by
      simp only [beq_iff_eq]
      intro heq
      exact hnodup.1 (by
        rw [heq]
        simp)
    unfold zStorage Storage.lookup
    simp only [List.cons_append, List.map_cons, List.find?]
    rw [Bool.of_not_eq_true hqname]
    exact ih pc Z₂ hnodup.2

/-- Fixed fields of a layout have extent equal to their chunk; dynamic
fields have extent zero. -/
theorem zLayout_be {z Z₁ Z₂ : List ZField} {pc : ZField}
    (hz : zLayout z) (hsplit : z = Z₁ ++ pc :: Z₂) :
    pc.1.2.bytes_expected = 0
      ∨ pc.1.2.bytes_expected = (pc.2.length : Int) := by
  have hpre_be : ∀ (z₁ : List ZField) (qc : ZField) (z₂ : List ZField)
      (off : Int), preZone off (z₁ ++ qc :: z₂) →
        qc.1.2.bytes_expected = (qc.2.length : Int) := by
    intro z₁
    induction z₁ with
    | nil =>
      intro qc z₂ off h
      simp only [List.nil_append] at h
      exact h.1
    | cons q z₁' ih =>
      intro qc z₂ off h
      simp only [List.cons_append] at h
      exact ih qc z₂ _ h.2.2.2.2
  have hpost_be : ∀ (z₁ : List ZField) (qc : ZField) (z₂ : List ZField),
      postZone (z₁ ++ qc :: z₂) →
        qc.1.2.bytes_expected = (qc.2.length : Int) := by
    intro z₁
    induction z₁ with
    | nil =>
      intro qc z₂ h
      simp only [List.nil_append] at h
      exact h.1
    | cons q z₁' ih =>
      intro qc z₂ h
      simp only [List.cons_append] at h
      exact ih qc z₂ h.2.2.2.2
  cases hz with
  | inl hpre => exact Or.inr (hpre_be Z₁ pc Z₂ 0 (hsplit ▸ hpre))
  | inr hdyn =>
    obtain ⟨pre, d, post, hzeq, hpreZ, hd, hpostZ⟩ := hdyn
    have hzeq' : z = pre ++ d :: post := by simpa using hzeq
    rcases cons_split_cases Z₁ pc Z₂ pre d post (hsplit ▸ hzeq') with
      ⟨h1, h2, h3⟩ | ⟨m, hm1, hm2⟩ | ⟨m, hm1, hm2⟩
    · subst h2
      exact Or.inl hd.1
    · subst hm1
      exact Or.inr (hpre_be Z₁ pc m 0 hpreZ)
    · subst hm2
      exact Or.inr (hpost_be m pc Z₂ hpostZ)

/-- C6 — Frame effect of `change`: on a populated storage whose fields
form a resolved continuous layout (the storage invariant), changing one
field with content valid for its structure succeeds, the changed field
then decodes to exactly the new values, and every other field decodes to
the same values as before the call — including when the changed field is
the dynamic one and the new content has a different length. -/
theorem change_frame_effect {z Z₁ Z₂ : List ZField} {pc : ZField}
    {vals : List Int}
    (hz : zLayout z) (hnodup : (z.map (fun q => q.1.1)).Nodup)
    (hsplit : z = Z₁ ++ pc :: Z₂)
    (hpop : zBuf z ≠ [])
    (hverify : pc.1.2.verify (pc.1.2.encode vals) = true)
    (hrange : ∀ v ∈ vals, pc.1.2.fmt.inRange v) :
    changeSt (zStorage z) pc.1.1 (.vals vals)
        = (zStorage (Z₁ ++ (pc.1, pc.1.2.encode vals) :: Z₂), none)
    ∧ pc.1.2.decode
        (fieldContent (zBuf (Z₁ ++ (pc.1, pc.1.2.encode vals) :: Z₂)) pc.1.2)
        = vals
    ∧ (∀ (Q₁ : List ZField) (qc : ZField) (Q₂ : List ZField),
        z = Q₁ ++ qc :: Q₂ → qc.1.1 ≠ pc.1.1 →
          qc.1.2.decode
            (fieldContent (zBuf (Z₁ ++ (pc.1, pc.1.2.encode vals) :: Z₂))
              qc.1.2)
            = qc.1.2.decode (fieldContent (zBuf z) qc.1.2)) := by
  have hok : pc.1.2.bytes_expected = 0
      ∨ (pc.1.2.encode vals).length = pc.2.length := by
    by_cases hdyn0 : pc.1.2.bytes_expected = 0
    · exact Or.inl hdyn0
    · right
      have hbe : pc.1.2.bytes_expected = (pc.2.length : Int) := by
        rcases zLayout_be hz hsplit with h0 | hbe
        · exact absurd h0 hdyn0
        · exact hbe
      unfold FieldStruct.verify FieldStruct.is_dynamic at hverify
      rw [show (pc.1.2.bytes_expected == 0) = false by
        simpa using hdyn0] at hverify
      simp only [Bool.false_eq_true, if_false, beq_iff_eq] at hverify
      rw [hbe] at hverify
      exact_mod_cast hverify
  have hz' : zLayout (Z₁ ++ (pc.1, pc.1.2.encode vals) :: Z₂) :=
    zLayout_replace hz hsplit hok
  have hchange : changeSt (zStorage z) pc.1.1 (.vals vals)
      = (zStorage (Z₁ ++ (pc.1, pc.1.2.encode vals) :: Z₂), none) := by
    unfold changeSt
    rw [show ((zStorage z).buf.length == 0) = false by
      simp only [zStorage]
      simpa [List.length_eq_zero] using hpop]
    simp only [Bool.false_eq_true, if_false]
    rw [hsplit, zStorage_lookup Z₁ pc Z₂ (hsplit ▸ hnodup)]
    unfold encodeContent
    simp only [hverify, if_true]
    have hupd := zLayout_update (pc.1.2.encode vals) hz hsplit
    rw [hsplit] at hupd
    simp only [zStorage]
    rw [hupd]
    have hfields : (Z₁ ++ pc :: Z₂).map (·.1)
        = (Z₁ ++ (pc.1, pc.1.2.encode vals) :: Z₂).map (·.1) := by
      simp
    simp only [zStorage, hfields]
  refine ⟨hchange, ?_, ?_⟩
  · have hcont := zLayout_content hz'
      (rfl : Z₁ ++ (pc.1, pc.1.2.encode vals) :: Z₂
        = Z₁ ++ (pc.1, pc.1.2.encode vals) :: Z₂)
    rw [hcont]
    unfold FieldStruct.decode FieldStruct.encode
    exact decodeWords_encodeWords hrange
  · intro Q₁ qc Q₂ hq hname
    have halign := cons_split_cases Q₁ qc Q₂ Z₁ pc Z₂ (hq ▸ hsplit)
    have hold := zLayout_content hz hq
    rcases halign with ⟨h1, h2, h3⟩ | ⟨m, hm1, hm2⟩ | ⟨m, hm1, hm2⟩
    · exact absurd (congrArg (fun q => q.1.1) h2) hname
    · have hsplit' : Z₁ ++ (pc.1, pc.1.2.encode vals) :: Z₂
          = Q₁ ++ qc :: (m ++ (pc.1, pc.1.2.encode vals) :: Z₂) := by
        rw [hm1]
        simp
      have hnew := zLayout_content hz' hsplit'
      rw [hnew, hold]
    · have hsplit' : Z₁ ++ (pc.1, pc.1.2.encode vals) :: Z₂
          = (Z₁ ++ (pc.1, pc.1.2.encode vals) :: m) ++ qc :: Q₂ := by
        rw [hm2]
        simp
      have hnew := zLayout_content hz' hsplit'
      rw [hnew, hold]

/-- Witness for C6: a three-field storage `[5] / [6,7] / [8]` whose middle
field is dynamic; changing the dynamic field to `[9,10,11]` grows the
buffer, decodes back the new values, and leaves the trailing field's
decoded value untouched. -/
theorem change_frame_effect_witness :
    changeSt
        (zStorage [(("f0", ⟨0, some 1, 1, .u8, true, []⟩), [5]),
          (("f1", ⟨1, some (-1), 0, .u8, true, []⟩), [6, 7]),
          (("f2", ⟨-1, none, 1, .u8, true, []⟩), [8])])
        "f1" (.vals [9, 10, 11])
      = (zStorage [(("f0", ⟨0, some 1, 1, .u8, true, []⟩), [5]),
          (("f1", ⟨1, some (-1), 0, .u8, true, []⟩), [9, 10, 11]),
          (("f2", ⟨-1, none, 1, .u8, true, []⟩), [8])], none)
    ∧ FieldStruct.decode ⟨1, some (-1), 0, .u8, true, []⟩
        (fieldContent
          (zBuf [(("f0", ⟨0, some 1, 1, .u8, true, []⟩), [5]),
            (("f1", ⟨1, some (-1), 0, .u8, true, []⟩), [9, 10, 11]),
            (("f2", ⟨-1, none, 1, .u8, true, []⟩), [8])])
          ⟨1, some (-1), 0, .u8, true, []⟩)
        = [9, 10, 11]
    ∧ FieldStruct.decode ⟨-1, none, 1, .u8, true, []⟩
        (fieldContent
          (zBuf [(("f0", ⟨0, some 1, 1, .u8, true, []⟩), [5]),
            (("f1", ⟨1, some (-1), 0, .u8, true, []⟩), [9, 10, 11]),
            (("f2", ⟨-1, none, 1, .u8, true, []⟩), [8])])
          ⟨-1, none, 1, .u8, true, []⟩)
        = FieldStruct.decode ⟨-1, none, 1, .u8, true, []⟩
          (fieldContent
            (zBuf [(("f0", ⟨0, some 1, 1, .u8, true, []⟩), [5]),
              (("f1", ⟨1, some (-1), 0, .u8, true, []⟩), [6, 7]),
              (("f2", ⟨-1, none, 1, .u8, true, []⟩), [8])])
            ⟨-1, none, 1, .u8, true, []⟩) := by
  have hz : zLayout [(("f0", ⟨0, some 1, 1, .u8, true, []⟩), [5]),
      (("f1", ⟨1, some (-1), 0, .u8, true, []⟩), [6, 7]),
      (("f2", ⟨-1, none, 1, .u8, true, []⟩), [8])] := by
    right
    refine ⟨[(("f0", ⟨0, some 1, 1, .u8, true, []⟩), [5])],
      (("f1", ⟨1, some (-1), 0, .u8, true, []⟩), [6, 7]),
      [(("f2", ⟨-1, none, 1, .u8, true, []⟩), [8])], rfl, ?_, ?_, ?_⟩
    · simp [preZone]
    · simp [dynField, zoneLen]
    · simp [postZone, zoneLen]
  have h := @change_frame_effect
    [(("f0", ⟨0, some 1, 1, .u8, true, []⟩), [5]),
     (("f1", ⟨1, some (-1), 0, .u8, true, []⟩), [6, 7]),
     (("f2", ⟨-1, none, 1, .u8, true, []⟩), [8])]
    [(("f0", ⟨0, some 1, 1, .u8, true, []⟩), [5])]
    [(("f2", ⟨-1, none, 1, .u8, true, []⟩), [8])]
    (("f1", ⟨1, some (-1), 0, .u8, true, []⟩), [6, 7])
    [9, 10, 11]
    hz (by decide) rfl (by decide) (by decide) (by decide)
  refine ⟨h.1, h.2.1, ?_⟩
  exact h.2.2
    [(("f0", ⟨0, some 1, 1, .u8, true, []⟩), [5]),
     (("f1", ⟨1, some (-1), 0, .u8, true, []⟩), [6, 7])]
    (("f2", ⟨-1, none, 1, .u8, true, []⟩), [8]) [] rfl (by decide)

/-- C5 — FieldStruct construction validation, in the source's order:
(a) `stop == 0` is rejected first; (b) an explicit non-zero `stop`
together with a positive `bytes_expected` is rejected; (c) with no
`stop`, `0 > start > -bytes_expected` is rejected; (d) otherwise the
missing `stop` is derived (`start + bytes_expected`, or kept open when
that lands on zero) or the missing `bytes_expected` is derived from
`stop - start`; (e) after derivation a `bytes_expected` that is not a
multiple of the word size is rejected.  The three concrete rejections of
the claim close the statement. -/
theorem field_construction_validation :
    (∀ (start be : Int) (fmt : Fmt) (big : Bool) (d : List Nat),
      mkField start (some 0) be fmt big d
        = .error (.valueError "'stop' can't be equal to zero"))
    ∧ (∀ (start s be : Int) (fmt : Fmt) (big : Bool) (d : List Nat),
        s ≠ 0 → 0 < be →
        mkField start (some s) be fmt big d
          = .error (.typeError "'bytes_expected' or 'stop' setting not allowed"))
    ∧ (∀ (start be : Int) (fmt : Fmt) (big : Bool) (d : List Nat),
        0 > start → start > -be →
        mkField start none be fmt big d
          = .error (.valueError "it will be out of bounds"))
    ∧ (∀ (start be : Int) (fmt : Fmt) (big : Bool) (d : List Nat),
        0 < be → ¬(0 > start ∧ start > -be) → be % (fmt.width : Int) = 0 →
        mkField start none be fmt big d
          = .ok ⟨start, if start + be ≠ 0 then some (start + be) else none,
              be, fmt, big, d⟩)
    ∧ (∀ (start s : Int) (fmt : Fmt) (big : Bool) (d : List Nat),
        s ≠ 0 → ¬(start ≥ 0 ∧ s < 0) → (s - start) % (fmt.width : Int) = 0 →
        mkField start (some s) 0 fmt big d
          = .ok ⟨start, some s, s - start, fmt, big, d⟩)
    ∧ (∀ (start be : Int) (fmt : Fmt) (big : Bool) (d : List Nat),
        0 < be → ¬(0 > start ∧ start > -be) → be % (fmt.width : Int) ≠ 0 →
        mkField start none be fmt big d
          = .error
            (.valueError "'bytes_expected' does not match an integer word count"))
    ∧ mkField 0 (some 0) 0 .u8 true []
        = .error (.valueError "'stop' can't be equal to zero")
    ∧ mkField 0 none 3 .u16 true []
        = .error
          (.valueError "'bytes_expected' does not match an integer word count")
    ∧ mkField (-2) none 5 .u8 true []
        = .error (.valueError "it will be out of bounds") := by
  refine ⟨?_, ?_, ?_, ?_, ?_, ?_, rfl, rfl, rfl⟩
  · intro start be fmt big d
    unfold mkField
    rw [if_pos rfl]
  · intro start s be fmt big d hs hbe
    unfold mkField
    rw [if_neg (by simp [hs]), if_pos ⟨by simp, hbe⟩]
  · intro start be fmt big d h1 h2
    unfold mkField
    rw [if_neg (by simp), if_neg (by simp), if_pos ⟨h1, h2⟩]
  · intro start be fmt big d hbe hbounds hmod
    unfold mkField
    rw [if_neg (by simp), if_neg (by simp), if_neg hbounds]
    simp only [if_neg (show ¬be < 0 by omega), if_pos hbe]
    simp only [hmod, ne_eq, not_true_eq_false, if_false, not_false_eq_true]
  · intro start s fmt big d hs hcond hmod
    unfold mkField
    rw [if_neg (by simp [hs]), if_neg (by simp),
      if_neg (by rintro ⟨h1, h2⟩; omega)]
    simp only [show ¬(0 : Int) < 0 by omega, if_false, lt_irrefl]
    simp only [if_pos hcond, hmod, ne_eq, not_true_eq_false, if_false]
  · intro start be fmt big d hbe hbounds hmod
    unfold mkField
    rw [if_neg (by simp), if_neg (by simp), if_neg hbounds]
    simp only [if_neg (show ¬be < 0 by omega), if_pos hbe]
    simp only [hmod, ne_eq, if_true, not_false_eq_true]

/-- Witness for C5: each quantified rule applied at a concrete input. -/
theorem field_construction_validation_witness :
    mkField 1 (some 5) 2 .u8 true []
      = .error (.typeError "'bytes_expected' or 'stop' setting not allowed")
    ∧ mkField (-2) none 5 .u8 true []
      = .error (.valueError "it will be out of bounds")
    ∧ mkField 4 none 4 .u16 true []
      = .ok ⟨4, some 8, 4, .u16, true, []⟩
    ∧ mkField 0 (some 6) 0 .u16 true []
      = .ok ⟨0, some 6, 6, .u16, true, []⟩
    ∧ mkField 0 none 3 .u16 true []
      = .error
        (.valueError "'bytes_expected' does not match an integer word count") :=
  ⟨field_construction_validation.2.1 1 5 2 .u8 true [] (by decide) (by decide),
   field_construction_validation.2.2.1 (-2) 5 .u8 true [] (by decide)
     (by decide),
   field_construction_validation.2.2.2.1 4 4 .u16 true [] (by decide)
     (by decide) (by decide),
   field_construction_validation.2.2.2.2.1 0 6 .u16 true [] (by decide)
     (by decide) (by decide),
   field_construction_validation.2.2.2.2.2.1 0 3 .u16 true [] (by decide)
     (by decide) (by decide)⟩

/-- C10 — A negative `bytes_expected` is not rejected: `_modify_values`
silently normalises it to `0` before any branch reads it, so construction
behaves exactly as if `bytes_expected = 0` had been given; with the
default geometry (`start = 0`, `stop = None`) it succeeds, and the
resulting field is dynamic, its `verify` accepting exactly the contents
whose length is a multiple of the word size. -/
theorem negative_bytes_expected_normalised :
    (∀ (start : Int) (stop : Option Int) (be : Int) (fmt : Fmt) (big : Bool)
        (d : List Nat), be < 0 →
      mkField start stop be fmt big d = mkField start stop 0 fmt big d)
    ∧ (∀ (be : Int) (fmt : Fmt) (big : Bool) (d : List Nat), be < 0 →
      mkField 0 none be fmt big d = .ok ⟨0, none, 0, fmt, big, d⟩)
    ∧ (∀ f : FieldStruct, f.bytes_expected = 0 →
        f.is_dynamic = true
        ∧ ∀ content : List Nat,
            f.verify content = (content.length % f.word_bytesize == 0)) := by
  have hequiv : ∀ (start : Int) (stop : Option Int) (be : Int) (fmt : Fmt)
      (big : Bool) (d : List Nat), be < 0 →
      mkField start stop be fmt big d = mkField start stop 0 fmt big d := by
    intro start stop be fmt big d hbe
    unfold mkField
    have h1 : ¬(stop.isSome ∧ be > 0) := by rintro ⟨-, h⟩; omega
    have h1' : ¬(stop.isSome ∧ (0 : Int) > 0) := by rintro ⟨-, h⟩; omega
    have h2 : ¬(0 > start ∧ start > -be) := by rintro ⟨hs, h⟩; omega
    have h2' : ¬(0 > start ∧ start > -(0 : Int)) := by rintro ⟨hs, h⟩; omega
    by_cases h0 : stop = some 0
    · rw [if_pos h0, if_pos h0]
    · rw [if_neg h0, if_neg h0, if_neg h1, if_neg h1', if_neg h2, if_neg h2']
      simp only [if_pos hbe, lt_irrefl, if_false]
  refine ⟨hequiv, ?_, ?_⟩
  · intro be fmt big d hbe
    rw [hequiv 0 none be fmt big d hbe]
    unfold mkField
    simp
  · intro f hf
    constructor
    · unfold FieldStruct.is_dynamic
      simp [hf]
    · intro content
      unfold FieldStruct.verify FieldStruct.is_dynamic
      simp [hf]

/-- Witness for C10: `bytes_expected = -100` behaves as `0`, yields a
dynamic field, and its `verify` accepts two-byte-aligned content only. -/
theorem negative_bytes_expected_normalised_witness :
    mkField 7 (some 9) (-100) .u8 true [] = mkField 7 (some 9) 0 .u8 true []
    ∧ mkField 0 none (-100) .u16 true [] = .ok ⟨0, none, 0, .u16, true, []⟩
    ∧ (⟨0, none, 0, .u16, true, []⟩ : FieldStruct).is_dynamic = true
    ∧ (⟨0, none, 0, .u16, true, []⟩ : FieldStruct).verify [1, 2] = true
    ∧ (⟨0, none, 0, .u16, true, []⟩ : FieldStruct).verify [1, 2, 3] = false :=
  ⟨negative_bytes_expected_normalised.1 7 (some 9) (-100) .u8 true []
     (by decide),
   negative_bytes_expected_normalised.2.1 (-100) .u16 true [] (by decide),
   ((negative_bytes_expected_normalised.2.2 ⟨0, none, 0, .u16, true, []⟩
     rfl).1),
   ((negative_bytes_expected_normalised.2.2 ⟨0, none, 0, .u16, true, []⟩
     rfl).2 [1, 2]),
   ((negative_bytes_expected_normalised.2.2 ⟨0, none, 0, .u16, true, []⟩
     rfl).2 [1, 2, 3])⟩

/-- C8 — Codec round-trip: for every field structure and every value
sequence representable in its integer format, decoding the encoded bytes
restores the sequence. -/
theorem field_codec_round_trip (f : FieldStruct) (vals : List Int)
    (h : ∀ v ∈ vals, f.fmt.inRange v) :
    f.decode (f.encode vals) = vals := by
  unfold FieldStruct.decode FieldStruct.encode
  exact decodeWords_encodeWords h

/-- Witness for C8: a signed little-endian 16-bit sequence survives the
round trip. -/
theorem field_codec_round_trip_witness :
    FieldStruct.decode ⟨0, none, 0, .i16, false, []⟩
      (FieldStruct.encode ⟨0, none, 0, .i16, false, []⟩ [1000, -2, 0])
      = [1000, -2, 0] :=
  field_codec_round_trip ⟨0, none, 0, .i16, false, []⟩ [1000, -2, 0]
    (by decide)

theorem find?_key_mem {V : Type} :
    ∀ (l : List (String × V)) (k : String), k ∈ l.map (·.1) →
      ∃ q, l.find? (·.1 == k) = some q ∧ q.1 = k := by
  intro l
  induction l with
  | nil => intro k h; simp at h
  | cons p rest ih =>
    intro k h
    by_cases hk : p.1 = k
    · refine ⟨p, ?_, hk⟩
      rw [List.find?_cons]
      rw [show (p.1 == k) = true by simpa using hk]
    · have hmem : k ∈ rest.map (·.1) := by
        simp only [List.map_cons, List.mem_cons] at h
        rcases h with h | h
        · exact absurd h.symm hk
        · exact h
      obtain ⟨q, hq1, hq2⟩ := ih k hmem
      refine ⟨q, ?_, hq2⟩
      rw [List.find?_cons]
      rw [show (p.1 == k) = false by simpa using hk]
      exact hq1

theorem find?_filter_of_pred {V : Type} (g : (String × V) → Bool) :
    ∀ (l : List (String × V)) (k : String),
      (∀ q : String × V, q.1 = k → g q = true) →
      (l.filter g).find? (fun q => q.1 == k) = l.find? (fun q => q.1 == k) := by
  intro l
  induction l with
  | nil => intro k _; rfl
  | cons p rest ih =>
    intro k hg
    by_cases hk : p.1 = k
    · rw [List.filter_cons, if_pos (hg p hk), List.find?_cons,
        List.find?_cons]
      rw [show (p.1 == k) = true by simpa using hk]
    · by_cases hgp : g p = true
      · rw [List.filter_cons, if_pos hgp, List.find?_cons, List.find?_cons]
        rw [show (p.1 == k) = false by simpa using hk]
        exact ih k hg
      · rw [List.filter_cons, if_neg hgp]
        rw [ih k hg, List.find?_cons]
        rw [show (p.1 == k) = false by simpa using hk]

/-- In a merged parameter dict, a key present in the additions resolves to
the addition's value (the overrides take precedence). -/
theorem pyLookup_dictUpdate_mem {V : Type} :
    ∀ (kw additions : List (String × V)) (k : String),
      k ∈ additions.map (·.1) →
      pyLookup (dictUpdate kw additions) k = pyLookup additions k := by
  intro kw additions k hmem
  unfold pyLookup dictUpdate
  rw [List.find?_append]
  by_cases hkw : k ∈ kw.map (·.1)
  · -- the key sits in the stored parameters: its value was overwritten
    have hmap : (kw.map (fun p =>
        (p.1, (((additions.find? (·.1 == p.1)).map (·.2)).getD p.2)))).find?
          (fun p => p.1 == k)
        = (kw.find? (fun p => p.1 == k)).map (fun p =>
            (p.1, (((additions.find? (·.1 == p.1)).map (·.2)).getD p.2))) :=
      List.find?_map _ kw
    obtain ⟨q, hq1, hq2⟩ := find?_key_mem kw k hkw
    obtain ⟨r, hr1, hr2⟩ := find?_key_mem additions k hmem
    rw [hmap, hq1]
    simp only [Option.map_some, Option.or_some, Option.map]
    rw [hq2, hr1]
    simp
  · -- the key is new: it comes from the appended filtered additions
    have hnone : (kw.map
        (fun p => (p.1, (((additions.find? (·.1 == p.1)).map (·.2)).getD
          p.2)))).find? (fun p => p.1 == k) = none := by
      rw [List.find?_eq_none]
      intro x hx
      simp only [List.mem_map] at hx
      obtain ⟨q, hq, hq2⟩ := hx
      have : q.1 ≠ k := by
        intro heq
        exact hkw (by
          simp only [List.mem_map]
          exact ⟨q, hq, heq⟩)
      rw [← hq2]
      simpa using this
    rw [hnone, Option.none_or]
    rw [find?_filter_of_pred _ additions k (fun q hq => by
      simp only [hq]
      simpa using hkw)]

/-- C9 — Override conflict detection in `PatternABC.get` (whose
`_only_auto_parameters` is empty): with `changes_allowed = False` the
parameter merge raises exactly when some addition key coincides with a
stored parameter key; with `changes_allowed = True` it never raises and
every addition key resolves to the addition's value in the merged
parameter set. -/
theorem pattern_override_conflict {V : Type}
    (kw additions : List (String × V)) :
    ((∃ e, getParametersDict kw false additions [] = .error e)
      ↔ ∃ k, k ∈ kw.map (·.1) ∧ k ∈ additions.map (·.1))
    ∧ getParametersDict kw true additions [] = .ok (dictUpdate kw additions)
    ∧ (∀ k, k ∈ additions.map (·.1) →
        pyLookup (dictUpdate kw additions) k = pyLookup additions k) := by
  refine ⟨?_, ?_, pyLookup_dictUpdate_mem kw additions⟩
  · by_cases hC : ((kw.map (·.1)).filter
        (fun k => (additions.map (·.1)).contains k)) = []
    · constructor
      · intro ⟨e, he⟩
        unfold getParametersDict at he
        rw [if_neg (by
          rintro ⟨-, -, hne⟩
          exact hne hC)] at he
        simp only [List.find?_nil] at he
        exact absurd he (by simp)
      · rintro ⟨k, hk1, hk2⟩
        exfalso
        rw [List.filter_eq_nil_iff] at hC
        exact absurd (by simpa using hk2) (by simpa using hC k hk1)
    · constructor
      · intro _
        have hx := List.exists_mem_of_ne_nil _ hC
        obtain ⟨k, hk⟩ := hx
        rw [List.mem_filter] at hk
        exact ⟨k, hk.1, by simpa using hk.2⟩
      · intro _
        refine ⟨.syntaxError "keyword argument(s) repeated", ?_⟩
        unfold getParametersDict
        rw [if_pos]
        refine ⟨?_, by simp, hC⟩
        obtain ⟨k, hk⟩ := List.exists_mem_of_ne_nil _ hC
        rw [List.mem_filter] at hk
        have : additions ≠ [] := by
          intro h0
          rw [h0] at hk
          simp at hk
        simpa [List.length_eq_zero] using this
  · unfold getParametersDict
    rw [if_neg (by rintro ⟨-, h, -⟩; exact h rfl)]
    simp only [List.find?_nil]

/-- Witness for C9: stored `{a: 1, b: 2}` with additions `{b: 9, c: 3}`
conflicts on `b` when changes are not allowed; with changes allowed the
merge succeeds and `b` resolves to the addition's value `9`. -/
theorem pattern_override_conflict_witness :
    (∃ e, getParametersDict [("a", (1 : Int)), ("b", 2)] false
      [("b", 9), ("c", 3)] [] = .error e)
    ∧ getParametersDict [("a", (1 : Int)), ("b", 2)] true
        [("b", 9), ("c", 3)] []
      = .ok (dictUpdate [("a", (1 : Int)), ("b", 2)] [("b", 9), ("c", 3)])
    ∧ pyLookup (dictUpdate [("a", (1 : Int)), ("b", 2)] [("b", 9), ("c", 3)])
        "b" = some 9 := by
  refine ⟨?_, ?_, ?_⟩
  · exact (pattern_override_conflict [("a", (1 : Int)), ("b", 2)]
      [("b", 9), ("c", 3)]).1.mpr ⟨"b", by decide, by decide⟩
  · exact (pattern_override_conflict [("a", (1 : Int)), ("b", 2)]
      [("b", 9), ("c", 3)]).2.1
  · rw [(pattern_override_conflict [("a", (1 : Int)), ("b", 2)]
      [("b", 9), ("c", 3)]).2.2 "b" (by decide)]
    decide

/-- C1 — Layout resolution, evaluated at the repository's own example
(field sizes 2, 2, dynamic, 2, 1, the layout of
`test_get_continuous`): the current resolver
(`ContinuousBytesStorageStructPatternABC`, `store/bin/_pattern.py`)
assigns exactly the claim's offsets — forward prefix sums 0, 2, 4 before
the dynamic field, backward starts `-3`, `-1` after it, and dynamic stop
`-3`, the first negative cursor.  The older resolver still present in the
repository (`ContinuousBytesStoragePatternABC._modify_after_dyn`,
`types/store/_bin.py`, whose backward pass runs `stop -= kw["start"]`)
instead assigns `f3` start `-1` with stop `+1` and gives the dynamic
field the positive stop `+2`, so the two resolvers disagree on this
input. -/
theorem layout_resolution_backward_pass :
    newModifyAll [("f0", 2), ("f1", 2), ("f2", 0), ("f3", 2), ("f4", 1)]
      = .ok [("f0", 2, ⟨some 0, none⟩), ("f1", 2, ⟨some 2, none⟩),
          ("f2", 0, ⟨some 4, some (some (-3))⟩),
          ("f3", 2, ⟨some (-3), none⟩), ("f4", 1, ⟨some (-1), none⟩)]
    ∧ oldModifyAll [("f0", 2), ("f1", 2), ("f2", 0), ("f3", 2), ("f4", 1)]
      = [("f0", 2, ⟨some 0, some (some 2)⟩),
          ("f1", 2, ⟨some 2, some (some 4)⟩),
          ("f2", 0, ⟨some 4, some (some 2)⟩),
          ("f3", 2, ⟨some (-1), some (some 1)⟩),
          ("f4", 1, ⟨some (-1), some none⟩)]
    ∧ oldModifyAll [("f0", 2), ("f1", 2), ("f2", 0), ("f3", 2), ("f4", 1)]
      ≠ (newModifyAll
          [("f0", 2), ("f1", 2), ("f2", 0), ("f3", 2), ("f4", 1)]).toOption.getD
          [] :=
  ⟨rfl, rfl, by decide⟩

/-- C3 — Single-dynamic enforcement: the current resolver
(`ContinuousBytesStorageStructPatternABC`) rejects two dynamic
sub-patterns with `TypeError("two dynamic field not allowed")` whether
they are adjacent or separated, and succeeds on a layout with zero
dynamic fields; the older resolver
(`ContinuousBytesStoragePatternABC`, `types/store/_bin.py`) silently
returns a layout for the same two-dynamic inputs instead of raising. -/
theorem single_dynamic_enforcement :
    newModifyAll [("f0", 0), ("f1", 0)]
      = .error (.typeError "two dynamic field not allowed")
    ∧ newModifyAll [("a", 2), ("b", 0), ("c", 1), ("d", 0)]
      = .error (.typeError "two dynamic field not allowed")
    ∧ newModifyAll [("f0", 2), ("f1", 4)]
      = .ok [("f0", 2, ⟨some 0, none⟩), ("f1", 4, ⟨some 2, none⟩)]
    ∧ oldModifyAll [("f0", 0), ("f1", 0)]
      = [("f0", 0, ⟨some 0, some none⟩), ("f1", 0, ⟨some 0, some none⟩)]
    ∧ oldModifyAll [("a", 2), ("b", 0), ("c", 1), ("d", 0)]
      = [("a", 2, ⟨some 0, some (some 2)⟩),
          ("b", 0, ⟨some 2, some (some 1)⟩),
          ("c", 1, ⟨some (-1), some none⟩),
          ("d", 0, ⟨some 0, some none⟩)] :=
  ⟨rfl, rfl, rfl, rfl, rfl⟩

theorem preStructs_sum_nonneg :
    ∀ (fields : List (String × FieldStruct)) (off : Int),
      preStructs off fields → 0 ≤ (fields.map (·.2.bytes_expected)).sum := by
  intro fields
  induction fields with
  | nil => intro off _; simp
  | cons nf rest ih =>
    intro off h
    obtain ⟨h1, -, -, h4⟩ := h
    simp only [List.map_cons, List.sum_cons]
    have := ih _ h4
    omega

theorem preStructs_not_dynamic :
    ∀ (fields : List (String × FieldStruct)) (off : Int) (buf : List Nat),
      preStructs off fields →
      Storage.is_dynamic ⟨fields, buf⟩ = false := by
  intro fields
  induction fields with
  | nil => intro off buf _; rfl
  | cons nf rest ih =>
    intro off buf h
    obtain ⟨h1, -, -, h4⟩ := h
    unfold Storage.is_dynamic at ih ⊢
    simp only [List.any_cons, Bool.or_eq_false_iff]
    constructor
    · unfold FieldStruct.is_dynamic
      simpa using by omega
    · exact ih _ buf h4

/-- Zipping a fully fixed field list with consecutive slices of a buffer
of exactly the total fixed size reconstructs the field list, covers the
buffer, and forms a forward zone. -/
theorem chunkFields_spec :
    ∀ (fields : List (String × FieldStruct)) (content : List Nat) (off : Int),
      preStructs off fields →
      (content.length : Int) = (fields.map (·.2.bytes_expected)).sum →
      (chunkFields content fields).map (·.1) = fields
      ∧ zBuf (chunkFields content fields) = content
      ∧ preZone off (chunkFields content fields) := by
  intro fields
  induction fields with
  | nil =>
    intro content off _ hlen
    have hc : content = [] := by
      have hlen0 : content.length = 0 := by
        simp only [List.map_nil, List.sum_nil] at hlen
        omega
      exact List.length_eq_zero.mp hlen0
    subst hc
    exact ⟨rfl, rfl, trivial⟩
  | cons nf rest ih =>
    intro content off hpre hlen
    obtain ⟨h1, h2, h3, h4⟩ := hpre
    simp only [List.map_cons, List.sum_cons] at hlen
    have hrest_nonneg := preStructs_sum_nonneg rest _ h4
    have hbe_le : nf.2.bytes_expected.toNat ≤ content.length := by omega
    have htake_len : (content.take nf.2.bytes_expected.toNat).length
        = nf.2.bytes_expected.toNat := by
      simp only [List.length_take]
      omega
    have hdrop_len : ((content.drop nf.2.bytes_expected.toNat).length : Int)
        = (rest.map (·.2.bytes_expected)).sum := by
      simp only [List.length_drop]
      omega
    obtain ⟨ihmap, ihbuf, ihzone⟩ :=
      ih (content.drop nf.2.bytes_expected.toNat)
        (off + nf.2.bytes_expected) h4 hdrop_len
    refine ⟨?_, ?_, ?_⟩
    · unfold chunkFields
      simp only [List.map_cons, ihmap]
    · unfold chunkFields
      rw [zBuf_cons, ihbuf]
      exact List.take_append_drop _ content
    · unfold chunkFields
      refine ⟨?_, ?_, h2, ?_, ?_⟩
      · rw [htake_len]; omega
      · rw [htake_len]; omega
      · rw [htake_len]
        rw [show ((nf.2.bytes_expected.toNat : Int)) = nf.2.bytes_expected
          by omega]
        exact h3
      · rw [htake_len]
        rw [show ((nf.2.bytes_expected.toNat : Int)) = nf.2.bytes_expected
          by omega]
        exact ihzone

theorem preZone_all_verify :
    ∀ (z : List ZField) (off : Int), preZone off z →
      ∀ pc ∈ z, pc.1.2.verify pc.2 = true := by
  intro z
  induction z with
  | nil => intro off _ pc h; simp at h
  | cons q rest ih =>
    intro off h pc hmem
    obtain ⟨h1, h2, -, -, h5⟩ := h
    rcases List.mem_cons.mp hmem with heq | htail
    · subst heq
      unfold FieldStruct.verify FieldStruct.is_dynamic
      rw [show (pc.1.2.bytes_expected == 0) = false by simpa using by omega]
      simp only [Bool.false_eq_true, if_false, beq_iff_eq]
      omega
    · exact ih _ h5 pc htail

theorem nodup_names_ne {Z₁ Z₂ : List ZField} {pc : ZField}
    (hnodup : ((Z₁ ++ pc :: Z₂).map (fun q => q.1.1)).Nodup) :
    ∀ q ∈ Z₁, q.1.1 ≠ pc.1.1 := by
  intro q hq heq
  rw [List.map_append, List.map_cons, List.nodup_append] at hnodup
  exact hnodup.2.2 (List.mem_map.mpr ⟨q, hq, rfl⟩) (by rw [heq]; simp)

/-- The bytes dictionary `_extract` builds finds each field's own slice. -/
theorem find?_mapped_fields (B : List Nat) :
    ∀ (Z₁ : List ZField) (pc : ZField) (Z₂ : List ZField),
      (∀ q ∈ Z₁, q.1.1 ≠ pc.1.1) →
      ((((Z₁ ++ pc :: Z₂).map (·.1)).map (fun nf =>
          (nf.1, FieldVal.bytes (fieldContent B nf.2)))).find?
        (·.1 == pc.1.1)).map (·.2)
        = some (.bytes (fieldContent B pc.1.2)) := by
  intro Z₁
  induction Z₁ with
  | nil =>
    intro pc Z₂ _
    simp only [List.nil_append, List.map_cons, List.find?_cons]
    rw [show (pc.1.1 == pc.1.1) = true by simp]
    rfl
  | cons q Z₁' ih =>
    intro pc Z₂ hne
    simp only [List.cons_append, List.map_cons, List.find?_cons]
    rw [show (q.1.1 == pc.1.1) = false by
      simpa using hne q (by simp)]
    exact ih pc Z₂ (fun r hr => hne r (by simp [hr]))

/-- The appending loop of `_set_all`, fed each field's own valid chunk,
rebuilds exactly the concatenation of the chunks. -/
theorem setAllGo_chunks :
    ∀ (z : List ZField) (supplied : List (String × FieldVal)) (acc : List Nat),
      (∀ (Z₁ : List ZField) (pc : ZField) (Z₂ : List ZField),
        z = Z₁ ++ pc :: Z₂ →
        (supplied.find? (·.1 == pc.1.1)).map (·.2) = some (.bytes pc.2)) →
      (∀ pc ∈ z, pc.1.2.verify pc.2 = true) →
      setAllGo supplied acc (z.map (·.1)) = (acc ++ zBuf z, none) := by
  intro z
  induction z with
  | nil => intro supplied acc _ _; simp [setAllGo, zBuf]
  | cons pc rest ih =>
    intro supplied acc hfind hverify
    have hme := hfind [] pc rest rfl
    unfold setAllGo
    simp only [List.map_cons, hme, encodeContent]
    rw [if_pos (hverify pc (by simp))]
    show setAllGo supplied (acc ++ pc.2) (rest.map (·.1))
      = (acc ++ zBuf (pc :: rest), none)
    rw [ih supplied (acc ++ pc.2)
      (fun Z₁ qc Z₂ hsp => hfind (pc :: Z₁) qc Z₂ (by rw [hsp]; rfl))
      (fun qc hqc => hverify qc (by simp [hqc]))]
    rw [zBuf_cons]
    simp [List.append_assoc]

/-- Supplying exactly the storage's own field names passes
`_check_fields_list`. -/
theorem checkFieldsList_self (S : Storage) :
    checkFieldsList S (S.fields.map (·.1)) = none := by
  unfold checkFieldsList checkDiff
  have h1 : (S.fields.map (·.1)).filter
      (fun n => ¬(S.fields.map (·.1)).contains n) = [] := by
    rw [List.filter_eq_nil_iff]
    intro a ha
    simpa using ha
  rw [h1]
  simp

/-- C4 — Storage `extract` length boundary: extraction raises
`ValueError("bytes content too short")` whenever the content is shorter
than the sum of the fields' `bytes_expected`; a storage with no dynamic
field also raises `ValueError("bytes content too long")` when the content
is longer; and a non-dynamic continuous storage succeeds exactly at the
matching length, ending up holding the content. -/
theorem storage_extract_length_boundary :
    (∀ (S : Storage) (content : List Nat),
        (content.length : Int) < S.bytes_expected →
        extractSt S content
          = (S, some (.valueError "bytes content too short")))
    ∧ (∀ (S : Storage) (content : List Nat),
        S.is_dynamic = false → S.bytes_expected < (content.length : Int) →
        extractSt S content
          = (S, some (.valueError "bytes content too long")))
    ∧ (∀ (fields : List (String × FieldStruct)) (buf content : List Nat),
        preStructs 0 fields → (fields.map (·.1)).Nodup →
        (content.length : Int) = (fields.map (·.2.bytes_expected)).sum →
        extractSt ⟨fields, buf⟩ content = (⟨fields, content⟩, none)) := by
  refine ⟨?_, ?_, ?_⟩
  · intro S content h
    unfold extractSt
    rw [if_pos h]
  · intro S content hdyn hlong
    unfold extractSt
    rw [if_neg (by omega), if_pos ⟨by simp [hdyn], hlong⟩]
  · intro fields buf content hpre hnodup hlen
    obtain ⟨hmap, hbuf, hzone⟩ := chunkFields_spec fields content 0 hpre hlen
    have hznodup : ((chunkFields content fields).map (fun q => q.1.1)).Nodup := by
      have : (chunkFields content fields).map (fun q => q.1.1)
          = fields.map (·.1) := by
        rw [show (fun (q : ZField) => q.1.1)
          = (fun (nf : String × FieldStruct) => nf.1) ∘ (fun (q : ZField) => q.1)
          from rfl]
        rw [← List.map_map, hmap]
      rw [this]
      exact hnodup
    have hbe : (Storage.mk fields buf).bytes_expected
        = (fields.map (·.2.bytes_expected)).sum := rfl
    unfold extractSt
    rw [if_neg (by rw [hbe]; omega),
      if_neg (by rintro ⟨-, hgt⟩; rw [hbe] at hgt; omega)]
    show setAllSt ⟨fields, []⟩
      (fields.map (fun nf => (nf.1, FieldVal.bytes (fieldContent content nf.2))))
      = (⟨fields, content⟩, none)
    unfold setAllSt
    rw [if_neg (by simp)]
    have hnames : (fields.map (fun nf =>
        (nf.1, FieldVal.bytes (fieldContent content nf.2)))).map (·.1)
        = fields.map (·.1) := by
      rw [List.map_map]
      rfl
    rw [show ((fields.map (fun nf =>
        (nf.1, FieldVal.bytes (fieldContent content nf.2)))).map (·.1))
      = (Storage.mk fields []).fields.map (·.1) from hnames]
    rw [checkFieldsList_self ⟨fields, []⟩]
    have hgo : setAllGo
        (fields.map (fun nf => (nf.1, FieldVal.bytes (fieldContent content nf.2))))
        [] fields = ([] ++ zBuf (chunkFields content fields), none) := by
      conv_lhs =>
        rw [← hmap]
      rw [show ((chunkFields content fields).map (·.1)).map
          (fun nf => (nf.1, FieldVal.bytes (fieldContent content nf.2)))
        = ((chunkFields content fields).map (·.1)).map
          (fun nf => (nf.1, FieldVal.bytes (fieldContent content nf.2)))
        from rfl]
      apply setAllGo_chunks
      · intro Z₁ pc Z₂ hsplit
        have hfc : fieldContent content pc.1.2 = pc.2 := by
          rw [← hbuf]
          exact zLayout_content (Or.inl hzone) hsplit
        rw [← hfc, hsplit]
        exact find?_mapped_fields content Z₁ pc Z₂
          (nodup_names_ne (hsplit ▸ hznodup))
      · exact preZone_all_verify _ 0 hzone
    rw [hgo, hbuf]
    simp

/-- Witness for C4: a fully fixed two-field storage with fixed total 4
rejects 3 and 5 bytes and succeeds at exactly 4 bytes. -/
theorem storage_extract_length_boundary_witness :
    extractSt ⟨[("f0", ⟨0, some 2, 2, .u8, true, []⟩),
        ("f1", ⟨2, some 4, 2, .u8, true, []⟩)], []⟩ [1, 2, 3]
      = (⟨[("f0", ⟨0, some 2, 2, .u8, true, []⟩),
          ("f1", ⟨2, some 4, 2, .u8, true, []⟩)], []⟩,
        some (.valueError "bytes content too short"))
    ∧ extractSt ⟨[("f0", ⟨0, some 2, 2, .u8, true, []⟩),
        ("f1", ⟨2, some 4, 2, .u8, true, []⟩)], []⟩ [1, 2, 3, 4, 5]
      = (⟨[("f0", ⟨0, some 2, 2, .u8, true, []⟩),
          ("f1", ⟨2, some 4, 2, .u8, true, []⟩)], []⟩,
        some (.valueError "bytes content too long"))
    ∧ extractSt ⟨[("f0", ⟨0, some 2, 2, .u8, true, []⟩),
        ("f1", ⟨2, some 4, 2, .u8, true, []⟩)], []⟩ [1, 2, 3, 4]
      = (⟨[("f0", ⟨0, some 2, 2, .u8, true, []⟩),
          ("f1", ⟨2, some 4, 2, .u8, true, []⟩)], [1, 2, 3, 4]⟩, none) :=
  ⟨storage_extract_length_boundary.1
    ⟨[("f0", ⟨0, some 2, 2, .u8, true, []⟩),
      ("f1", ⟨2, some 4, 2, .u8, true, []⟩)], []⟩ [1, 2, 3] (by decide),
   storage_extract_length_boundary.2.1
    ⟨[("f0", ⟨0, some 2, 2, .u8, true, []⟩),
      ("f1", ⟨2, some 4, 2, .u8, true, []⟩)], []⟩ [1, 2, 3, 4, 5] (by decide)
      (by decide),
   storage_extract_length_boundary.2.2
    [("f0", ⟨0, some 2, 2, .u8, true, []⟩),
     ("f1", ⟨2, some 4, 2, .u8, true, []⟩)] [] [1, 2, 3, 4]
    (by norm_num [preStructs]) (by decide) (by decide)⟩

/-- C2 counterexample — `extract` is not atomic on error: a storage
holding `[1, 2, 3]` (fixed one-byte `f0`, dynamic two-byte-word `f1`)
extracting `[9, 8]` passes both length checks, clears the buffer, appends
`f0`'s slice `[9]`, then fails `f1`'s per-field validation (`1 % 2 ≠ 0`)
— leaving the storage holding `[9]`, not its prior content `[1, 2, 3]`. -/
theorem extract_failure_not_atomic :
    extractSt ⟨[("f0", ⟨0, some 1, 1, .u8, true, []⟩),
        ("f1", ⟨1, none, 0, .u16, true, []⟩)], [1, 2, 3]⟩ [9, 8]
      = (⟨[("f0", ⟨0, some 1, 1, .u8, true, []⟩),
          ("f1", ⟨1, none, 0, .u16, true, []⟩)], [9]⟩,
        some (.valueError "content is not correct for field"))
    ∧ ([9] : List Nat) ≠ [1, 2, 3] :=
  ⟨rfl, by decide⟩

/-- C2 (amended) — Failures detected before any mutation leave the
storage's observable content unchanged: both `extract` length checks
return with the buffer intact, and a failing `change` (empty storage,
unknown field name, or content failing the field's validation) never
touches the buffer.  (An `extract` that passes the length checks and then
fails per-field validation is *not* atomic — see the counterexample.) -/
theorem error_paths_preserve_content :
    (∀ (S : Storage) (content : List Nat),
        (content.length : Int) < S.bytes_expected →
        (extractSt S content).1 = S)
    ∧ (∀ (S : Storage) (content : List Nat),
        S.is_dynamic = false → S.bytes_expected < (content.length : Int) →
        (extractSt S content).1 = S)
    ∧ (∀ (S : Storage) (n : String) (raw : FieldVal),
        (changeSt S n raw).2.isSome = true → (changeSt S n raw).1 = S) := by
  refine ⟨?_, ?_, ?_⟩
  · intro S content h
    unfold extractSt
    rw [if_pos h]
  · intro S content hdyn hlong
    unfold extractSt
    rw [if_neg (by omega), if_pos ⟨by simp [hdyn], hlong⟩]
  · intro S n raw h
    have key : (changeSt S n raw).1 = S ∨ (changeSt S n raw).2 = none := by
      unfold changeSt
      cases hb : (S.buf.length == 0) with
      | true => left; simp
      | false =>
        simp only [Bool.false_eq_true, if_false]
        cases hl : S.lookup n with
        | none => left; simp
        | some f =>
          simp only
          cases he : encodeContent f raw with
          | error e => left; simp
          | ok c => right; simp
    rcases key with hk | hk
    · exact hk
    · rw [hk] at h
      simp at h

/-- Witness for the amended C2: a populated one-field storage keeps its
content `[7, 7]` across a too-short extract, a too-long extract, and a
change whose content fails the field's validation. -/
theorem error_paths_preserve_content_witness :
    (extractSt ⟨[("f0", ⟨0, some 2, 2, .u8, true, []⟩)], [7, 7]⟩ [1]).1
      = ⟨[("f0", ⟨0, some 2, 2, .u8, true, []⟩)], [7, 7]⟩
    ∧ (extractSt ⟨[("f0", ⟨0, some 2, 2, .u8, true, []⟩)], [7, 7]⟩
        [1, 2, 3]).1
      = ⟨[("f0", ⟨0, some 2, 2, .u8, true, []⟩)], [7, 7]⟩
    ∧ (changeSt ⟨[("f0", ⟨0, some 2, 2, .u8, true, []⟩)], [7, 7]⟩ "f0"
        (.bytes [1])).1
      = ⟨[("f0", ⟨0, some 2, 2, .u8, true, []⟩)], [7, 7]⟩ :=
  ⟨error_paths_preserve_content.1
    ⟨[("f0", ⟨0, some 2, 2, .u8, true, []⟩)], [7, 7]⟩ [1] (by decide),
   error_paths_preserve_content.2.1
    ⟨[("f0", ⟨0, some 2, 2, .u8, true, []⟩)], [7, 7]⟩ [1, 2, 3] (by decide)
    (by decide),
   error_paths_preserve_content.2.2
    ⟨[("f0", ⟨0, some 2, 2, .u8, true, []⟩)], [7, 7]⟩ "f0" (.bytes [1])
    (by decide)⟩

theorem fieldContent_nil (f : FieldStruct) : fieldContent [] f = [] := by
  unfold fieldContent pySliceGet
  simp

theorem storage_lookup_none_iff (fields : List (String × FieldStruct))
    (buf : List Nat) (n : String) :
    Storage.lookup ⟨fields, buf⟩ n = none ↔ n ∉ fields.map (·.1) := by
  unfold Storage.lookup
  rw [Option.map_eq_none', List.find?_eq_none]
  constructor
  · intro h hmem
    obtain ⟨q, hq, hqe⟩ := List.mem_map.mp hmem
    have hq2 := h q hq
    simp only [beq_iff_eq] at hq2
    exact hq2 hqe
  · intro h q hq
    simp only [beq_iff_eq]
    intro he
    exact h (List.mem_map.mpr ⟨q, hq, he⟩)

theorem storage_lookup_some_mem {fields : List (String × FieldStruct)}
    {buf : List Nat} {n : String} {f : FieldStruct}
    (h : Storage.lookup ⟨fields, buf⟩ n = some f) :
    ∃ nf, nf ∈ fields ∧ nf.1 = n ∧ nf.2 = f := by
  unfold Storage.lookup at h
  rw [Option.map_eq_some'] at h
  obtain ⟨q, hq1, hq2⟩ := h
  exact ⟨q, List.mem_of_find?_eq_some hq1,
    by simpa using List.find?_some hq1, hq2⟩

theorem storage_lookup_split (buf : List Nat) :
    ∀ (f₁ : List (String × FieldStruct)) (nf : String × FieldStruct)
      (f₂ : List (String × FieldStruct)),
      ((f₁ ++ nf :: f₂).map (·.1)).Nodup →
      Storage.lookup ⟨f₁ ++ nf :: f₂, buf⟩ nf.1 = some nf.2 := by
  intro f₁
  induction f₁ with
  | nil =>
    intro nf f₂ _
    unfold Storage.lookup
    simp only [List.nil_append, List.find?_cons]
    rw [show (nf.1 == nf.1) = true by simp]
    rfl
  | cons q f₁' ih =>
    intro nf f₂ hnodup
    simp only [List.cons_append, List.map_cons, List.nodup_cons] at hnodup
    have htail := ih nf f₂ hnodup.2
    unfold Storage.lookup at htail ⊢
    simp only [List.cons_append, List.find?_cons]
    rw [show (q.1 == nf.1) = false by
      simp only [beq_eq_false_iff_ne, ne_eq]
      intro he
      exact hnodup.1 (by rw [he]; simp)]
    exact htail

/-- Membership in the list `_check_fields_list` reports, for an empty
storage: exactly the required fields absent from the supplied names and
the supplied names that are not fields. -/
theorem mem_checkDiff_empty (fields : List (String × FieldStruct))
    (names : List String) (n : String) :
    n ∈ checkDiff ⟨fields, []⟩ names ↔
      ((∃ f, Storage.lookup ⟨fields, []⟩ n = some f ∧ f.has_default = false
          ∧ f.is_dynamic = false) ∧ n ∈ fields.map (·.1) ∧ n ∉ names)
      ∨ (n ∈ names ∧ n ∉ fields.map (·.1)) := by
  unfold checkDiff
  rw [List.mem_filter, List.mem_append, List.mem_filter, List.mem_filter]
  cases hl : Storage.lookup (Storage.mk fields []) n with
  | none =>
    have hnot := (storage_lookup_none_iff fields [] n).mp hl
    constructor
    · rintro ⟨hdiff, -⟩
      rcases hdiff with ⟨hmem, -⟩ | ⟨hmem, -⟩
      · exact absurd hmem hnot
      · exact Or.inr ⟨hmem, hnot⟩
    · rintro (⟨⟨f, hf, -⟩, -⟩ | ⟨hmem, hnin⟩)
      · exact absurd hf (by simp)
      · exact ⟨Or.inr ⟨hmem, by simpa using hnin⟩, rfl⟩
  | some f =>
    obtain ⟨nf, hnf_mem, hnf_name, hnf_val⟩ := storage_lookup_some_mem hl
    have hfmem : n ∈ fields.map (·.1) :=
      List.mem_map.mpr ⟨nf, hnf_mem, hnf_name⟩
    constructor
    · rintro ⟨hdiff, hp⟩
      simp only [fieldContent_nil, List.length_nil, bne_self_eq_false,
        Bool.or_false, decide_eq_true_eq, not_or, Bool.not_eq_true] at hp
      rw [Bool.or_eq_false_iff] at hp
      rcases hdiff with ⟨-, hnin⟩ | ⟨-, hnin⟩
      · exact Or.inl ⟨⟨f, rfl, hp.1, hp.2⟩, hfmem, by simpa using hnin⟩
      · exact absurd hfmem (by simpa using hnin)
    · rintro (⟨⟨f', hf', hd', hdyn'⟩, -, hnin⟩ | ⟨-, hnin⟩)
      · have hfe : f = f' := Option.some.inj hf'
        subst hfe
        refine ⟨Or.inl ⟨hfmem, by simpa using hnin⟩, ?_⟩
        simp [fieldContent_nil, hd', hdyn']
      · exact absurd hfmem hnin

theorem pyLookup_none_iff {V : Type} (l : List (String × V)) (n : String) :
    pyLookup l n = none ↔ n ∉ l.map (·.1) := by
  unfold pyLookup
  rw [Option.map_eq_none', List.find?_eq_none]
  constructor
  · intro h hmem
    obtain ⟨q, hq, hqe⟩ := List.mem_map.mp hmem
    have hq2 := h q hq
    simp only [beq_iff_eq] at hq2
    exact hq2 hqe
  · intro h q hq
    simp only [beq_iff_eq]
    intro he
    exact h (List.mem_map.mpr ⟨q, hq, he⟩)

theorem storage_lookup_of_mem {fields : List (String × FieldStruct)}
    (buf : List Nat) {nf : String × FieldStruct}
    (hmem : nf ∈ fields) (hnodup : (fields.map (·.1)).Nodup) :
    Storage.lookup ⟨fields, buf⟩ nf.1 = some nf.2 := by
  obtain ⟨s, t, hst⟩ := List.append_of_mem hmem
  subst hst
  exact storage_lookup_split buf s nf t hnodup

/-- `_encode_content` only ever raises the content `ValueError`. -/
theorem encodeContent_error_shape {f : FieldStruct} {raw : FieldVal}
    {e : PyErr} (h : encodeContent f raw = .error e) :
    e = .valueError "content is not correct for field" := by
  simp only [encodeContent] at h
  split at h
  · simp at h
  · exact (Except.error.inj h).symm

/-- The appending loop of `_set_all` never raises `AttributeError`. -/
theorem setAllGo_no_attributeError :
    ∀ (fields : List (String × FieldStruct))
      (supplied : List (String × FieldVal)) (acc : List Nat)
      (l : List String),
      (setAllGo supplied acc fields).2 ≠ some (.attributeError l) := by
  intro fields
  induction fields with
  | nil =>
    intro supplied acc l
    simp [setAllGo]
  | cons nf rest ih =>
    intro supplied acc l
    obtain ⟨n, f⟩ := nf
    cases hfind : (supplied.find? (·.1 == n)).map (·.2) with
    | some raw =>
      unfold setAllGo
      simp only [hfind]
      cases he : encodeContent f raw with
      | error e =>
        simp only [he]
        rw [encodeContent_error_shape he]
        simp
      | ok c =>
        simp only [he]
        exact ih supplied (acc ++ c) l
    | none =>
      unfold setAllGo
      simp only [hfind]
      by_cases hd : f.has_default = true
      · rw [if_pos hd]
        exact ih supplied (acc ++ f.default) l
      · rw [if_neg hd]
        by_cases hdyn : f.is_dynamic = true
        · rw [if_pos hdyn]
          exact ih supplied acc l
        · rw [if_neg hdyn]
          simp

/-- On an empty storage, `_set_all` raises `AttributeError(l)` exactly
when `_check_fields_list` reports `l`. -/
theorem setAllSt_empty_attr_iff (fields : List (String × FieldStruct))
    (supplied : List (String × FieldVal)) (l : List String) :
    (setAllSt ⟨fields, []⟩ supplied).2 = some (.attributeError l)
      ↔ checkFieldsList ⟨fields, []⟩ (supplied.map (·.1)) = some l := by
  unfold setAllSt
  rw [if_neg (by simp)]
  cases hc : checkFieldsList ⟨fields, []⟩ (supplied.map (·.1)) with
  | some diff =>
    show some (PyErr.attributeError diff) = some (.attributeError l)
      ↔ some diff = some l
    simp
  | none =>
    show (setAllGo supplied [] fields).2 = some (.attributeError l)
      ↔ none = some l
    constructor
    · intro h
      exact absurd h (setAllGo_no_attributeError fields supplied [] l)
    · intro h
      exact absurd h (by simp)

theorem checkFieldsList_some_iff (S : Storage) (names : List String)
    (l : List String) :
    checkFieldsList S names = some l
      ↔ checkDiff S names = l ∧ checkDiff S names ≠ [] := by
  unfold checkFieldsList
  by_cases h : (checkDiff S names).isEmpty = true
  · rw [if_pos h]
    rw [List.isEmpty_iff] at h
    simp [h]
  · rw [if_neg h]
    rw [List.isEmpty_iff] at h
    simp [h]

/-- When every field is supplied, defaulted or dynamic and every supplied
name is a field, `_check_fields_list` passes on an empty storage. -/
theorem checkFieldsList_none_of_covered (fields : List (String × FieldStruct))
    (supplied : List (String × FieldVal))
    (hcov : ∀ nf ∈ fields, nf.1 ∈ supplied.map (·.1)
      ∨ nf.2.has_default = true ∨ nf.2.is_dynamic = true)
    (hnames : ∀ n ∈ supplied.map (·.1), n ∈ fields.map (·.1)) :
    checkFieldsList ⟨fields, []⟩ (supplied.map (·.1)) = none := by
  have hempty : checkDiff ⟨fields, []⟩ (supplied.map (·.1)) = [] := by
    rw [List.eq_nil_iff_forall_not_mem]
    intro n hn
    rw [mem_checkDiff_empty] at hn
    rcases hn with ⟨⟨f, hf, hfd, hfdyn⟩, _hmem, hnin⟩ | ⟨hmem, hnin⟩
    · obtain ⟨nf, hnf_mem, hnf1, hnf2⟩ := storage_lookup_some_mem hf
      rcases hcov nf hnf_mem with h1 | h2 | h3
      · exact hnin (hnf1 ▸ h1)
      · simp [hnf2, hfd] at h2
      · simp [hnf2, hfdyn] at h3
    · exact hnin (hnames n hmem)
  unfold checkFieldsList
  rw [hempty]
  rfl

/-- The appending loop of `_set_all`, when every field is covered and
every supplied content encodes, assembles the per-field contributions in
declaration order. -/
theorem setAllGo_contributions :
    ∀ (fields : List (String × FieldStruct))
      (supplied : List (String × FieldVal)) (acc : List Nat),
      (∀ nf ∈ fields, nf.1 ∈ supplied.map (·.1)
        ∨ nf.2.has_default = true ∨ nf.2.is_dynamic = true) →
      (∀ nf ∈ fields, suppliedEncodes supplied nf = true) →
      setAllGo supplied acc fields
        = (acc ++ (fields.map (setContribution supplied)).flatten, none) := by
  intro fields
  induction fields with
  | nil =>
    intro supplied acc _ _
    simp [setAllGo]
  | cons nf rest ih =>
    intro supplied acc hcov hok
    obtain ⟨n, f⟩ := nf
    have hcovR : ∀ q ∈ rest, q.1 ∈ supplied.map (·.1)
        ∨ q.2.has_default = true ∨ q.2.is_dynamic = true :=
      fun q hq => hcov q (by simp [hq])
    have hokR : ∀ q ∈ rest, suppliedEncodes supplied q = true :=
      fun q hq => hok q (by simp [hq])
    have hok₀ : (match pyLookup supplied n with
        | some raw => (encodeContent f raw).isOk
        | none => true) = true := hok (n, f) (by simp)
    cases hfind : pyLookup supplied n with
    | some raw =>
      have hfind' : (supplied.find? (·.1 == n)).map (·.2) = some raw := hfind
      simp only [hfind] at hok₀
      obtain ⟨c, hc⟩ : ∃ c, encodeContent f raw = Except.ok c := by
        cases he : encodeContent f raw with
        | ok c => exact ⟨c, rfl⟩
        | error e =>
          rw [he] at hok₀
          simp [Except.isOk, Except.toBool] at hok₀
      unfold setAllGo
      simp only [hfind', hc]
      rw [ih supplied (acc ++ c) hcovR hokR]
      have hcontrib : setContribution supplied (n, f) = c := by
        simp only [setContribution, hfind', hc]
      simp only [List.map_cons, List.flatten_cons, hcontrib,
        List.append_assoc]
    | none =>
      have hfind' : (supplied.find? (·.1 == n)).map (·.2) = none := hfind
      have hnmem : n ∉ supplied.map (·.1) :=
        (pyLookup_none_iff supplied n).mp hfind
      unfold setAllGo
      simp only [hfind']
      by_cases hd : f.has_default = true
      · rw [if_pos hd, ih supplied (acc ++ f.default) hcovR hokR]
        have hcontrib : setContribution supplied (n, f) = f.default := by
          simp only [setContribution, hfind']
          rw [if_pos hd]
        simp only [List.map_cons, List.flatten_cons, hcontrib,
          List.append_assoc]
      · have hdyn : f.is_dynamic = true := by
          rcases hcov (n, f) (by simp) with hmem | hd' | hdyn
          · exact absurd hmem hnmem
          · exact absurd hd' hd
          · exact hdyn
        rw [if_neg hd, if_pos hdyn, ih supplied acc hcovR hokR]
        have hcontrib : setContribution supplied (n, f) = [] := by
          simp only [setContribution, hfind']
          rw [if_neg hd]
        simp only [List.map_cons, List.flatten_cons, hcontrib,
          List.nil_append]

/-- C7 — Required-fields check of the field-by-field encode on an empty
storage (`_check_fields_list` then `_set_all`): (a) the call raises
`AttributeError` exactly when some required field (no default, not
dynamic) is absent from the supplied names or some supplied name is not a
field of the storage; (b) the raised error lists exactly those
missing/extra names; (c) when every field is supplied, defaulted or
dynamic, every supplied name is a field and every supplied content passes
`_encode_content`, the call succeeds and the buffer is the in-order
concatenation of each field's contribution: the encoded supplied content,
else the field's default bytes, else — for an omitted dynamic field —
nothing. -/
theorem required_fields_check
    (fields : List (String × FieldStruct))
    (supplied : List (String × FieldVal))
    (hnodup : (fields.map (·.1)).Nodup) :
    ((∃ l, (setAllSt ⟨fields, []⟩ supplied).2 = some (.attributeError l))
        ↔ ((∃ nf ∈ fields, nf.2.has_default = false
              ∧ nf.2.is_dynamic = false ∧ nf.1 ∉ supplied.map (·.1))
           ∨ (∃ n ∈ supplied.map (·.1), n ∉ fields.map (·.1))))
    ∧ (∀ l, (setAllSt ⟨fields, []⟩ supplied).2 = some (.attributeError l) →
        ∀ n, n ∈ l ↔
          ((∃ nf ∈ fields, nf.1 = n ∧ nf.2.has_default = false
              ∧ nf.2.is_dynamic = false ∧ n ∉ supplied.map (·.1))
           ∨ (n ∈ supplied.map (·.1) ∧ n ∉ fields.map (·.1))))
    ∧ ((∀ nf ∈ fields, nf.1 ∈ supplied.map (·.1)
          ∨ nf.2.has_default = true ∨ nf.2.is_dynamic = true) →
       (∀ n ∈ supplied.map (·.1), n ∈ fields.map (·.1)) →
       (∀ nf ∈ fields, suppliedEncodes supplied nf = true) →
       setAllSt ⟨fields, []⟩ supplied
         = (⟨fields, (fields.map (setContribution supplied)).flatten⟩,
            none)) := by
  have hmem_iff : ∀ n, n ∈ checkDiff ⟨fields, []⟩ (supplied.map (·.1)) ↔
      ((∃ nf ∈ fields, nf.1 = n ∧ nf.2.has_default = false
          ∧ nf.2.is_dynamic = false ∧ n ∉ supplied.map (·.1))
       ∨ (n ∈ supplied.map (·.1) ∧ n ∉ fields.map (·.1))) := by
    intro n
    rw [mem_checkDiff_empty]
    constructor
    · rintro (⟨⟨f, hf, hd, hdyn⟩, _hmem, hnin⟩ | h)
      · obtain ⟨nf, hnf_mem, hnf1, hnf2⟩ := storage_lookup_some_mem hf
        exact Or.inl ⟨nf, hnf_mem, hnf1, by rw [hnf2]; exact hd,
          by rw [hnf2]; exact hdyn, hnin⟩
      · exact Or.inr h
    · rintro (⟨nf, hnf_mem, hnf1, hd, hdyn, hnin⟩ | h)
      · refine Or.inl ⟨⟨nf.2, ?_, hd, hdyn⟩, ?_, hnin⟩
        · rw [← hnf1]
          exact storage_lookup_of_mem [] hnf_mem hnodup
        · exact List.mem_map.mpr ⟨nf, hnf_mem, hnf1⟩
      · exact Or.inr h
  refine ⟨?_, ?_, ?_⟩
  · constructor
    · rintro ⟨l, hl⟩
      rw [setAllSt_empty_attr_iff, checkFieldsList_some_iff] at hl
      obtain ⟨n, hn⟩ := List.exists_mem_of_ne_nil _ hl.2
      rcases (hmem_iff n).mp hn with ⟨nf, h1, h2, h3, h4, h5⟩ | ⟨h1, h2⟩
      · exact Or.inl ⟨nf, h1, h3, h4, by rw [h2]; exact h5⟩
      · exact Or.inr ⟨n, h1, h2⟩
    · intro h
      have hne : checkDiff ⟨fields, []⟩ (supplied.map (·.1)) ≠ [] := by
        rcases h with ⟨nf, hmem, hd, hdyn, hnin⟩ | ⟨n, hmem, hnin⟩
        · intro hnil
          have hin := (hmem_iff nf.1).mpr
            (Or.inl ⟨nf, hmem, rfl, hd, hdyn, hnin⟩)
          rw [hnil] at hin
          simp at hin
        · intro hnil
          have hin := (hmem_iff n).mpr (Or.inr ⟨hmem, hnin⟩)
          rw [hnil] at hin
          simp at hin
      exact ⟨checkDiff ⟨fields, []⟩ (supplied.map (·.1)),
        (setAllSt_empty_attr_iff fields supplied _).mpr
          ((checkFieldsList_some_iff _ _ _).mpr ⟨rfl, hne⟩)⟩
  · intro l hl n
    rw [setAllSt_empty_attr_iff, checkFieldsList_some_iff] at hl
    rw [← hl.1]
    exact hmem_iff n
  · intro hcov hnames hok
    have hcheck := checkFieldsList_none_of_covered fields supplied hcov hnames
    unfold setAllSt
    rw [if_neg (by simp)]
    simp only [hcheck]
    rw [setAllGo_contributions fields supplied [] hcov hok]
    simp

theorem required_fields_check_witness :
    setAllSt ⟨[("f0", ⟨0, some 1, 1, .u8, true, []⟩),
               ("f1", ⟨1, some 2, 1, .u8, true, [7]⟩),
               ("f2", ⟨2, none, 0, .u8, true, []⟩)], []⟩
        [("f0", FieldVal.vals [5])]
      = (⟨[("f0", ⟨0, some 1, 1, .u8, true, []⟩),
           ("f1", ⟨1, some 2, 1, .u8, true, [7]⟩),
           ("f2", ⟨2, none, 0, .u8, true, []⟩)], [5, 7]⟩, none)
    ∧ (∃ l, (setAllSt ⟨[("f0", ⟨0, some 1, 1, .u8, true, []⟩),
               ("f1", ⟨1, some 2, 1, .u8, true, [7]⟩),
               ("f2", ⟨2, none, 0, .u8, true, []⟩)], []⟩
          [("f9", FieldVal.bytes [1])]).2
        = some (.attributeError l)) := by
  constructor
  · rw [(required_fields_check
      [("f0", ⟨0, some 1, 1, .u8, true, []⟩),
       ("f1", ⟨1, some 2, 1, .u8, true, [7]⟩),
       ("f2", ⟨2, none, 0, .u8, true, []⟩)]
      [("f0", FieldVal.vals [5])] (by decide)).2.2
      (by decide) (by decide) (by decide)]
    rfl
  · exact (required_fields_check
      [("f0", ⟨0, some 1, 1, .u8, true, []⟩),
       ("f1", ⟨1, some 2, 1, .u8, true, [7]⟩),
       ("f2", ⟨2, none, 0, .u8, true, []⟩)]
      [("f9", FieldVal.bytes [1])] (by decide)).1.mpr
      (Or.inr ⟨"f9", by decide, by decide⟩)

end PyiakInstr
